import Mathlib

/-!
Verification development for the LabelFlow annotation-persistence subsystem
(`src/data_manager.py`).  The Python data model is shallowly embedded: file
names are Lean `String`s compared by code point exactly as Python compares
`str`; the working directory is modelled flat, as a list of file names (with
byte contents where a claim needs them); machine-level concerns (Qt threads,
real file I/O) are replaced by explicit state passing.  Every definition is
translated from the source; doc comments cite the Python symbol it embeds.
-/

set_option maxRecDepth 10000

/-- Model of Python `str.lower` restricted to ASCII: the twenty-six uppercase
letters map to their lowercase forms, all other characters are unchanged.
File names handled by `data_manager.py` are compared with `.lower()` in
several places. -/
def lowerChar : Char → Char
  | 'A' => 'a' | 'B' => 'b' | 'C' => 'c' | 'D' => 'd' | 'E' => 'e' | 'F' => 'f'
  | 'G' => 'g' | 'H' => 'h' | 'I' => 'i' | 'J' => 'j' | 'K' => 'k' | 'L' => 'l'
  | 'M' => 'm' | 'N' => 'n' | 'O' => 'o' | 'P' => 'p' | 'Q' => 'q' | 'R' => 'r'
  | 'S' => 's' | 'T' => 't' | 'U' => 'u' | 'V' => 'v' | 'W' => 'w' | 'X' => 'x'
  | 'Y' => 'y' | 'Z' => 'z'
  | c => c

/-- Python `str.lower` applied to a whole string (ASCII model). -/
def lowerStr (s : String) : String := ⟨s.data.map lowerChar⟩

/-- Strict lexicographic comparison of character lists by code point: this is
exactly how Python orders `str` values, hence how `list.sort()` orders the
file-name lists in `scan_images` and `rename_all_images`. -/
def lexLtChars : List Char → List Char → Bool
  | [], [] => false
  | [], _ :: _ => true
  | _ :: _, [] => false
  | a :: as, b :: bs => if a < b then true else if b < a then false else lexLtChars as bs

/-- Reflexive companion of `lexLtChars`, used as the sorting relation. -/
def fileLe (a b : String) : Prop := lexLtChars b.data a.data = false

instance : DecidableRel fileLe := fun a b =>
  inferInstanceAs (Decidable (_ = false))

theorem lexLtChars_irrefl : ∀ a, lexLtChars a a = false := by
  intro a
  induction a with
  | nil => rfl
  | cons c cs ih => simp [lexLtChars, ih]

theorem lexLtChars_asymm : ∀ a b, lexLtChars a b = true → lexLtChars b a = false := by
  intro a
  induction a with
  | nil => intro b h; cases b with
    | nil => simpa [lexLtChars] using h
    | cons c cs => rfl
  | cons c cs ih =>
    intro b h
    cases b with
    | nil => simp [lexLtChars] at h
    | cons d ds =>
      by_cases hcd : c < d
      · simp [lexLtChars, lt_asymm hcd, hcd]
      · by_cases hdc : d < c
        · simp [lexLtChars, hcd, hdc] at h
        · simp [lexLtChars, hcd, hdc] at h ⊢
          exact ih ds h

theorem lexLtChars_trans :
    ∀ a b c, lexLtChars a b = true → lexLtChars b c = true → lexLtChars a c = true := by
  intro a
  induction a with
  | nil =>
    intro b c hab hbc
    cases b with
    | nil => simp [lexLtChars] at hab
    | cons d ds =>
      cases c with
      | nil => simp [lexLtChars] at hbc
      | cons e es => rfl
  | cons x xs ih =>
    intro b c hab hbc
    cases b with
    | nil => simp [lexLtChars] at hab
    | cons y ys =>
      cases c with
      | nil => simp [lexLtChars] at hbc
      | cons z zs =>
        by_cases hxy : x < y
        · by_cases hyz : y < z
          · have hxz : x < z := lt_trans hxy hyz
            simp [lexLtChars, hxz]
          · by_cases hzy : z < y
            · simp [lexLtChars, hyz, hzy] at hbc
            · have hyez : y = z := le_antisymm (not_lt.mp hzy) (not_lt.mp hyz)
              subst hyez
              simp [lexLtChars, hxy]
        · by_cases hyx : y < x
          · simp [lexLtChars, hxy, hyx] at hab
          · have hxey : x = y := le_antisymm (not_lt.mp hyx) (not_lt.mp hxy)
            subst hxey
            simp [lexLtChars, lt_irrefl] at hab
            by_cases hxz : x < z
            · simp [lexLtChars, hxz]
            · by_cases hzx : z < x
              · simp [lexLtChars, hxz, hzx] at hbc
              · have hxez : x = z := le_antisymm (not_lt.mp hzx) (not_lt.mp hxz)
                subst hxez
                simp [lexLtChars, lt_irrefl] at hab hbc ⊢
                exact ih ys zs hab hbc

theorem lexLtChars_connex :
    ∀ a b, lexLtChars a b = false → lexLtChars b a = false → a = b := by
  intro a
  induction a with
  | nil =>
    intro b hab _
    cases b with
    | nil => rfl
    | cons d ds => simp [lexLtChars] at hab
  | cons x xs ih =>
    intro b hab hba
    cases b with
    | nil => simp [lexLtChars] at hba
    | cons y ys =>
      by_cases hxy : x < y
      · simp [lexLtChars, hxy] at hab
      · by_cases hyx : y < x
        · simp [lexLtChars, hyx, lt_asymm hyx] at hba
        · have hxey : x = y := le_antisymm (not_lt.mp hyx) (not_lt.mp hxy)
          subst hxey
          simp [lexLtChars, lt_irrefl] at hab hba
          rw [ih ys hab hba]

theorem strings_eq_of_data_eq {a b : String} (h : a.data = b.data) : a = b := by
  cases a; cases b; exact congrArg String.mk h

instance : IsTotal String fileLe := by
  constructor
  intro a b
  by_cases h : lexLtChars b.data a.data = false
  · exact Or.inl h
  · have h1 : lexLtChars b.data a.data = true := by
      cases hc : lexLtChars b.data a.data
      · exact absurd hc h
      · rfl
    exact Or.inr (lexLtChars_asymm _ _ h1)

instance : IsTrans String fileLe := by
  constructor
  intro a b c hab hbc
  unfold fileLe at *
  cases hca : lexLtChars c.data a.data
  · rfl
  · exfalso
    by_cases hcb : lexLtChars c.data b.data = true
    · rw [hbc] at hcb; exact Bool.noConfusion hcb
    · have hcb' : lexLtChars c.data b.data = false := by
        cases h : lexLtChars c.data b.data
        · rfl
        · exact absurd h hcb
      by_cases hbcl : lexLtChars b.data c.data = true
      · have := lexLtChars_trans _ _ _ hbcl hca
        rw [hab] at this; exact Bool.noConfusion this
      · have hbc' : lexLtChars b.data c.data = false := by
          cases h : lexLtChars b.data c.data
          · rfl
          · exact absurd h hbcl
        have : b.data = c.data := lexLtChars_connex _ _ hbc' hcb'
        rw [this] at hab
        rw [hab] at hca
        exact Bool.noConfusion hca

instance : IsAntisymm String fileLe := by
  constructor
  intro a b hab hba
  exact strings_eq_of_data_eq (lexLtChars_connex _ _ hba hab)

/-- Model of Python `list.sort()` on a list of file names: the unique
code-point-ascending reordering. -/
def sortFiles (fs : List String) : List String := List.insertionSort fileLe fs

theorem sortFiles_perm (fs : List String) : (sortFiles fs).Perm fs :=
  List.perm_insertionSort fileLe fs

theorem sortFiles_sorted (fs : List String) : List.Sorted fileLe (sortFiles fs) :=
  List.sorted_insertionSort fileLe fs

/-- Helper for `splitExt`: finds the last `'.'` in a character list, returning
the part before it and the part from it on; `none` when there is no dot. -/
def splitExtChars : List Char → Option (List Char × List Char)
  | [] => none
  | c :: rest =>
    match splitExtChars rest with
    | some (b, e) => some (c :: b, e)
    | none => if c = '.' then some ([], '.' :: rest) else none

/-- Model of Python `os.path.splitext` on a bare file name: split at the last
dot, except that a name whose every character before the last dot is a dot
(such as `".jpg"`) has no extension. -/
def splitExt (s : String) : String × String :=
  match splitExtChars s.data with
  | some (b, e) => if b.all (fun c => c = '.') then (s, "") else (⟨b⟩, ⟨e⟩)
  | none => (s, "")

/-- Image-extension allow-list `DataManager.SUPPORTED_FORMATS`. -/
def SUPPORTED_FORMATS : List String := [".jpg", ".jpeg", ".png", ".bmp", ".tiff", ".tif"]

/-- Python `file.lower().endswith(ext)` test against the allow-list, as used in
`scan_images` and `rename_all_images` to classify a file as an image. -/
def isImage (f : String) : Bool :=
  SUPPORTED_FORMATS.any (fun e => e.data.isSuffixOf (lowerStr f).data)

/-- Model of the reserved-name filter of `rename_all_images`: a JSON file other
than `labels.json`, `labels_cache.json`, `keys_setting.json`. -/
def isJsonCandidate (f : String) : Bool :=
  ".json".data.isSuffixOf (lowerStr f).data &&
    !(f = "labels.json" || f = "labels_cache.json" || f = "keys_setting.json")

/-- Fixed-width decimal rendering: `padDigits k i` is the `k`-digit zero-padded
decimal form of `i < 10 ^ k`. -/
def padDigits : Nat → Nat → List Char
  | 0, _ => []
  | k + 1, i => Nat.digitChar (i / 10 ^ k) :: padDigits k (i % 10 ^ k)

/-- Model of the Python format expression `f"IMG_{i:06d}"`'s digit part: six
zero-padded digits for `i < 10 ^ 6`, the plain decimal otherwise. -/
def pad6 (i : Nat) : String :=
  if i < 1000000 then ⟨padDigits 6 i⟩ else ⟨Nat.toDigits 10 i⟩

/-- Memory-management constant `DataManager.MAX_MEMORY_MB`. -/
def MAX_MEMORY_MB : Nat := 1024

/-- Memory-management constant `DataManager.DEFAULT_BATCH_SIZE`. -/
def DEFAULT_BATCH_SIZE : Nat := 100

/-- Memory-management constant `DataManager.MIN_BATCH_SIZE`. -/
def MIN_BATCH_SIZE : Nat := 20

/-- Model of `DataManager.adjust_loading_strategy`, as a function of the list
of discovered image file sizes in catalog order.  The Python float expressions
`avg_size = total_size / sample_size`, `estimated_memory_mb > MAX_MEMORY_MB`
and `int(MAX_MEMORY_MB * 1024 * 1024 / avg_size)` are carried out in exact
rational arithmetic, cleared of denominators: the comparison becomes
`total_size * 100 > 1024 MiB * sample_size` and the truncation becomes natural
division. -/
def adjustLoadingStrategy (sizes : List Nat) : Nat :=
  let total := sizes.length
  if total < 100 then total
  else
    let sample := min 5 total
    let totalSize := (sizes.take sample).sum
    if totalSize * DEFAULT_BATCH_SIZE > MAX_MEMORY_MB * 1048576 * sample then
      max MIN_BATCH_SIZE (MAX_MEMORY_MB * 1048576 * sample / totalSize)
    else DEFAULT_BATCH_SIZE

/-- Claim C8 counterexample: 500 files of 100 MiB each.  The code computes
`max(20, floor(1024 MiB / avg))` and the 20 floor dominates: the result 20
exceeds `ceil(1024 MiB / 100 MiB) = 11`, so the claimed ceiling bound fails. -/
theorem C8_ceiling_counterexample :
    adjustLoadingStrategy (List.replicate 500 (100 * 1048576)) = MIN_BATCH_SIZE ∧
    (MAX_MEMORY_MB * 1048576 + 100 * 1048576 - 1) / (100 * 1048576) = 11 ∧
    ¬ adjustLoadingStrategy (List.replicate 500 (100 * 1048576)) ≤ 11 := by
  refine ⟨by decide, by decide, by decide⟩

/-- Claim C8, amended: below 100 entries the batch size is the entry count;
at or above 100 it lies in `[MIN_BATCH_SIZE, DEFAULT_BATCH_SIZE]`; when the
100-entry estimate exceeds the 1024 MiB ceiling, the batch size is at most
`max(MIN_BATCH_SIZE, ceil(1024 MiB / average sampled size))` — the
`MIN_BATCH_SIZE` floor is applied after the ceiling-derived bound, so the
plain `ceil` bound of the original claim holds only when it is at least 20;
and for 500 files of 20 MiB the computed batch size is 51 ≤ ceil(1024/20). -/
theorem C8_batch_size_bounds (sizes : List Nat) :
    (sizes.length < 100 → adjustLoadingStrategy sizes = sizes.length) ∧
    (100 ≤ sizes.length →
      MIN_BATCH_SIZE ≤ adjustLoadingStrategy sizes ∧
      adjustLoadingStrategy sizes ≤ DEFAULT_BATCH_SIZE) ∧
    (100 ≤ sizes.length →
      (sizes.take 5).sum * DEFAULT_BATCH_SIZE > MAX_MEMORY_MB * 1048576 * 5 →
      adjustLoadingStrategy sizes ≤
        max MIN_BATCH_SIZE
          ((MAX_MEMORY_MB * 1048576 * 5 + (sizes.take 5).sum - 1) / (sizes.take 5).sum)) ∧
    (adjustLoadingStrategy (List.replicate 500 (20 * 1048576)) = 51 ∧ 51 ≤ 52) := by
  refine ⟨?_, ?_, ?_, by decide, by decide⟩
  · intro h
    simp [adjustLoadingStrategy, h]
  · intro h
    have hmin : min 5 sizes.length = 5 := min_eq_left (by omega)
    simp only [adjustLoadingStrategy]
    rw [if_neg (by omega), hmin]
    by_cases hc :
        (sizes.take 5).sum * DEFAULT_BATCH_SIZE > MAX_MEMORY_MB * 1048576 * 5
    · rw [if_pos hc]
      refine ⟨le_max_left _ _, max_le (by decide) ?_⟩
      have hpos : 0 < (sizes.take 5).sum := by
        by_contra h0
        push_neg at h0
        simp [Nat.le_zero.mp h0, MAX_MEMORY_MB, DEFAULT_BATCH_SIZE] at hc
      have hlt : MAX_MEMORY_MB * 1048576 * 5 / (sizes.take 5).sum < DEFAULT_BATCH_SIZE := by
        rw [Nat.div_lt_iff_lt_mul hpos]
        calc MAX_MEMORY_MB * 1048576 * 5 < (sizes.take 5).sum * DEFAULT_BATCH_SIZE := hc
          _ = DEFAULT_BATCH_SIZE * (sizes.take 5).sum := Nat.mul_comm _ _
      exact le_of_lt hlt
    · rw [if_neg hc]
      exact ⟨by decide, le_refl _⟩
  · intro h hc
    have hmin : min 5 sizes.length = 5 := min_eq_left (by omega)
    have hpos : 0 < (sizes.take 5).sum := by
      by_contra h0
      push_neg at h0
      simp [Nat.le_zero.mp h0, MAX_MEMORY_MB, DEFAULT_BATCH_SIZE] at hc
    simp only [adjustLoadingStrategy]
    rw [if_neg (by omega), hmin, if_pos hc]
    exact max_le_max (le_refl _) (Nat.div_le_div_right (by omega))

/-- Witness for `C8_batch_size_bounds` at 500 files of 20 MiB. -/
theorem C8_batch_size_bounds_witness :
    MIN_BATCH_SIZE ≤ adjustLoadingStrategy (List.replicate 500 (20 * 1048576)) ∧
    adjustLoadingStrategy (List.replicate 500 (20 * 1048576)) ≤ DEFAULT_BATCH_SIZE :=
  (C8_batch_size_bounds (List.replicate 500 (20 * 1048576))).2.1 (by decide)

/-- Model of the guarded append `if label not in self.available_labels:
self.available_labels.append(label)` used by `save_single_annotation`,
`load_individual_annotations` and `extract_labels_from_annotations`. -/
def addLabel (ls : List String) (l : String) : List String :=
  if l ∈ ls then ls else ls ++ [l]

/-- Folding `addLabel` over the labels encountered in one sidecar (or one
extraction pass), in encounter order. -/
def addLabels (ls : List String) (new : List String) : List String :=
  new.foldl addLabel ls

/-- Model of `DataManager.set_available_labels`: the Python code stores a
verbatim copy `labels[:]` of the caller's list, with no deduplication. -/
def setAvailableLabels (labels : List String) : List String := labels

theorem addLabel_nodup {ls : List String} (h : ls.Nodup) (l : String) :
    (addLabel ls l).Nodup := by
  unfold addLabel
  split
  · exact h
  · next hmem => simp [List.nodup_append, h, hmem]

theorem addLabel_extendsOrig (ls : List String) (l : String) :
    ∃ tail, addLabel ls l = ls ++ tail := by
  unfold addLabel
  split
  · exact ⟨[], by simp⟩
  · exact ⟨[l], rfl⟩

theorem addLabel_mem (ls : List String) (l x : String) :
    x ∈ addLabel ls l ↔ x ∈ ls ∨ x = l := by
  unfold addLabel
  split
  · next hmem =>
    constructor
    · exact fun hx => Or.inl hx
    · rintro (hx | rfl)
      · exact hx
      · exact hmem
  · simp

theorem addLabels_nodup {ls : List String} (new : List String) (h : ls.Nodup) :
    (addLabels ls new).Nodup := by
  induction new generalizing ls with
  | nil => exact h
  | cons n rest ih => exact ih (addLabel_nodup h n)

theorem addLabels_extendsOrig (ls new : List String) :
    ∃ tail, addLabels ls new = ls ++ tail := by
  induction new generalizing ls with
  | nil => exact ⟨[], by simp [addLabels]⟩
  | cons n rest ih =>
    obtain ⟨t1, h1⟩ := addLabel_extendsOrig ls n
    obtain ⟨t2, h2⟩ := ih (addLabel ls n)
    exact ⟨t1 ++ t2, by simp [addLabels] at h2 ⊢; rw [h2, h1, List.append_assoc]⟩

theorem addLabels_mem (ls new : List String) (x : String) :
    x ∈ addLabels ls new ↔ x ∈ ls ∨ x ∈ new := by
  induction new generalizing ls with
  | nil => simp [addLabels]
  | cons n rest ih =>
    show x ∈ addLabels (addLabel ls n) rest ↔ _
    rw [ih, addLabel_mem]
    constructor
    · rintro ((h | rfl) | h)
      · exact Or.inl h
      · exact Or.inr (List.mem_cons_self _ _)
      · exact Or.inr (List.mem_cons_of_mem _ h)
    · rintro (h | h)
      · exact Or.inl (Or.inl h)
      · rcases List.mem_cons.mp h with rfl | h
        · exact Or.inl (Or.inr rfl)
        · exact Or.inr h

/-- Claim C9 counterexample: `set_available_labels` installs the caller's list
verbatim (`self.available_labels = labels[:]`), so a duplicated input leaves
the available-label set with a duplicate, violating the claimed invariant. -/
theorem C9_duplicate_counterexample :
    setAvailableLabels ["cat", "cat"] = ["cat", "cat"] ∧
    ¬ (setAvailableLabels ["cat", "cat"]).Nodup := by
  refine ⟨rfl, by decide⟩

/-- Claim C9, amended: labels merged from sidecars or saves go through the
membership-guarded append, which preserves the no-duplicate invariant and
extends the list at the end only (first-seen insertion order, stable across
saves); the union scenario of two sidecars labelled `cat` and `cat, dog`
yields exactly `cat, dog` with `cat` once.  Loading the cache file and
`set_available_labels` adopt the given list verbatim, so duplicates supplied
there survive (see the counterexample). -/
theorem C9_label_set_invariant (ls new : List String) (h : ls.Nodup) :
    (addLabels ls new).Nodup ∧
    (∃ tail, addLabels ls new = ls ++ tail) ∧
    (∀ x, x ∈ addLabels ls new ↔ x ∈ ls ∨ x ∈ new) ∧
    addLabels (addLabels [] ["cat"]) ["cat", "dog"] = ["cat", "dog"] ∧
    (addLabels (addLabels [] ["cat"]) ["cat", "dog"]).count "cat" = 1 := by
  exact ⟨addLabels_nodup new h, addLabels_extendsOrig ls new, addLabels_mem ls new,
    by decide, by decide⟩

/-- Witness for `C9_label_set_invariant` on the union scenario itself. -/
theorem C9_label_set_invariant_witness :
    (addLabels ["cat"] ["cat", "dog"]).Nodup :=
  (C9_label_set_invariant ["cat"] ["cat", "dog"] (by decide)).1

/-- In-memory record for one discovered image, the relevant slice of Python
class `ImageInfo`: `hash is None` means not yet computed, `hash == ""` is the
explicit result of a failed computation, and `annot` is the raw annotation
string (`ImageInfo.annotation`). -/
structure ImageEntry where
  filename : String
  hash : Option String
  annot : String
deriving DecidableEq

/-- The slice of `DataManager` state touched by `save_annotation`: the entry
list, the current index and the hash-keyed `labels_data` dictionary. -/
structure CatalogState where
  images : List ImageEntry
  currentIndex : Nat
  labelsData : List (String × String)
deriving DecidableEq

/-- Python dict assignment `d[k] = v`: replace in place when the key exists
(insertion order of existing keys is preserved), append otherwise. -/
def dictSet {α : Type} : List (String × α) → String → α → List (String × α)
  | [], k, v => [(k, v)]
  | (k', v') :: rest, k, v =>
    if k' = k then (k', v) :: rest else (k', v') :: dictSet rest k v

/-- Model of `DataManager.get_current_image_info`: the entry at
`current_index` when in bounds, else `None`. -/
def getCurrentImage (st : CatalogState) : Option ImageEntry :=
  st.images.get? st.currentIndex

/-- Model of `DataManager.save_annotation`.  The guard is Python truthiness
`if current_image and current_image.hash`, so both a missing hash (`None`) and
the failed-hash sentinel `""` suppress the save.  The returned Bool records
whether `save_single_annotation` (the sidecar write) was invoked. -/
def saveAnnot (st : CatalogState) (a : String) : CatalogState × Bool :=
  match hcur : getCurrentImage st with
  | none => (st, false)
  | some img =>
    match img.hash with
    | none => (st, false)
    | some h =>
      if h = "" then (st, false)
      else
        ({ st with
            images := st.images.set st.currentIndex { img with annot := a },
            labelsData := dictSet st.labelsData h a }, true)

theorem saveAnnot_noop_of_none {st : CatalogState} (a : String)
    (h : getCurrentImage st = none) : saveAnnot st a = (st, false) := by
  unfold saveAnnot
  split
  · rfl
  · next heq => rw [h] at heq; exact Option.noConfusion heq

theorem saveAnnot_noop_of_unavailable {st : CatalogState} {img : ImageEntry} (a : String)
    (h : getCurrentImage st = some img) (hh : img.hash = none ∨ img.hash = some "") :
    saveAnnot st a = (st, false) := by
  unfold saveAnnot
  split
  · rfl
  · next img' heq =>
    rw [h] at heq
    cases heq
    rcases hh with hh | hh <;> rw [hh]
    rfl

theorem saveAnnot_success {st : CatalogState} {img : ImageEntry} {h : String} (a : String)
    (hc : getCurrentImage st = some img) (hh : img.hash = some h) (hne : h ≠ "") :
    saveAnnot st a =
      ({ st with
          images := st.images.set st.currentIndex { img with annot := a },
          labelsData := dictSet st.labelsData h a }, true) := by
  unfold saveAnnot
  split
  · next heq => rw [hc] at heq; exact Option.noConfusion heq
  · next img' heq =>
    rw [hc] at heq
    cases heq
    rw [hh]
    exact if_neg hne

/-- Claim C4 counterexample: a catalog whose current entry carries the
failed-hash sentinel `""` — a non-null hash.  `save_annotation` silently
no-ops (truthiness guard), so the claim's positive branch, which promises the
annotation is set whenever the hash is non-null, is false. -/
theorem C4_empty_hash_counterexample :
    getCurrentImage ⟨[⟨"a.jpg", some "", ""⟩], 0, []⟩ = some ⟨"a.jpg", some "", ""⟩ ∧
    (some "" : Option String) ≠ none ∧
    saveAnnot ⟨[⟨"a.jpg", some "", ""⟩], 0, []⟩ "x" = (⟨[⟨"a.jpg", some "", ""⟩], 0, []⟩, false) ∧
    ¬ (saveAnnot ⟨[⟨"a.jpg", some "", ""⟩], 0, []⟩ "x").1.images =
        [⟨"a.jpg", some "", "x"⟩] := by
  refine ⟨rfl, by decide, rfl, by decide⟩

/-- Claim C4, amended: `save_annotation` is a silent no-op (state unchanged,
no sidecar write, no error) whenever there is no current entry or the current
entry's hash is unavailable — `None` or the failed-hash sentinel `""`; when
the current entry's hash is a non-null, non-empty string, it sets that entry's
annotation, keys `labels_data` by the hash, and writes the sidecar. -/
theorem C4_saveAnnot_contract (st : CatalogState) (a : String) :
    (getCurrentImage st = none → saveAnnot st a = (st, false)) ∧
    (∀ img, getCurrentImage st = some img → img.hash = none ∨ img.hash = some "" →
      saveAnnot st a = (st, false)) ∧
    (∀ img h, getCurrentImage st = some img → img.hash = some h → h ≠ "" →
      (saveAnnot st a).2 = true ∧
      (saveAnnot st a).1.images = st.images.set st.currentIndex { img with annot := a } ∧
      (saveAnnot st a).1.labelsData = dictSet st.labelsData h a ∧
      (saveAnnot st a).1.currentIndex = st.currentIndex) := by
  refine ⟨fun h => saveAnnot_noop_of_none a h,
    fun img hc hh => saveAnnot_noop_of_unavailable a hc hh,
    fun img h hc hh hne => ?_⟩
  rw [saveAnnot_success a hc hh hne]
  exact ⟨rfl, rfl, rfl, rfl⟩

/-- Witness for `C4_saveAnnot_contract`: a concrete save with an available
hash updates the entry, and a concrete save on an empty catalog no-ops. -/
theorem C4_saveAnnot_contract_witness :
    (saveAnnot ⟨[⟨"a.jpg", some "h1", ""⟩], 0, []⟩ "cat").2 = true ∧
    saveAnnot ⟨[], 0, []⟩ "cat" = (⟨[], 0, []⟩, false) := by
  constructor
  · exact ((C4_saveAnnot_contract ⟨[⟨"a.jpg", some "h1", ""⟩], 0, []⟩ "cat").2.2
      ⟨"a.jpg", some "h1", ""⟩ "h1" rfl rfl (by decide)).1
  · exact (C4_saveAnnot_contract ⟨[], 0, []⟩ "cat").1 rfl

/-- Modelled stand-in for `hashlib.sha256(...).hexdigest()` — library code
outside this repository.  It is an executable deterministic function of the
file bytes producing 64 hex characters; no claim depends on the actual SHA-256
values, only on determinism and on the failure sentinel below. -/
def sha256hex (content : List Nat) : String :=
  ⟨(List.range 64).map fun k =>
    Nat.digitChar (content.foldl (fun a b => (a * 257 + b + 1) % 2 ^ 256) 0 / 16 ^ k % 16)⟩

/-- Model of `ImageInfo.calculate_hash`.  `readBytes` is the outcome of
opening the file: `none` models an unreadable file (the `except` branch, which
stores the sentinel `""`).  The memoization guard is `if self.hash is None`,
so any non-`None` stored value — including `""` — suppresses recomputation. -/
def calculateHash (img : ImageEntry) (readBytes : Option (List Nat)) : ImageEntry × String :=
  match img.hash with
  | some h => (img, h)
  | none =>
    match readBytes with
    | some content => ({ img with hash := some (sha256hex content) }, sha256hex content)
    | none => ({ img with hash := some "" }, "")

/-- Claim C10, confirmed: a failed hash computation stores the empty string
(not `None`); afterwards `calculate_hash` never recomputes for that entry in
the same process (the guard fires only on `None`), and `save_annotation`
treats the `""` hash as unavailable, remaining a no-op for that entry. -/
theorem C10_failed_hash_sentinel (img : ImageEntry) (h : img.hash = none) :
    (calculateHash img none).1.hash = some "" ∧
    (calculateHash img none).2 = "" ∧
    (∀ readBytes, calculateHash (calculateHash img none).1 readBytes =
      ((calculateHash img none).1, "")) ∧
    (∀ st a, getCurrentImage st = some (calculateHash img none).1 →
      saveAnnot st a = (st, false)) := by
  unfold calculateHash
  rw [h]
  refine ⟨rfl, rfl, fun readBytes => rfl, fun st a hc => ?_⟩
  exact saveAnnot_noop_of_unavailable a hc (Or.inr rfl)

/-- Witness for `C10_failed_hash_sentinel` at a concrete unhashed entry. -/
theorem C10_failed_hash_sentinel_witness :
    (calculateHash ⟨"a.jpg", none, ""⟩ none).1.hash = some "" :=
  (C10_failed_hash_sentinel ⟨"a.jpg", none, ""⟩ rfl).1

/-- Case-insensitive file-name order (what claim C5 asserts the scan uses). -/
def ciFileLe (a b : String) : Prop := fileLe (lowerStr a) (lowerStr b)

instance : DecidableRel ciFileLe := fun a b =>
  inferInstanceAs (Decidable (fileLe _ _))

/-- Model of `DataManager.scan_images` restricted to its ordering behaviour:
when the working directory does not exist the catalog stays empty; otherwise
the files walked from the directory are filtered by the extension allow-list
and sorted with Python `list.sort()` — plain code-point order on the paths. -/
def scanImages (dirExists : Bool) (walkFiles : List String) : List String :=
  if dirExists then sortFiles (walkFiles.filter isImage) else []

/-- Claim C5 counterexample: files `a.jpg` and `B.jpg`.  Python sorts the
paths case-sensitively, so `B.jpg` (code point 66) precedes `a.jpg` (97) and
the resulting order is not the claimed case-insensitive ascending order. -/
theorem C5_case_sensitive_counterexample :
    scanImages true ["a.jpg", "B.jpg"] = ["B.jpg", "a.jpg"] ∧
    ¬ List.Sorted ciFileLe (scanImages true ["a.jpg", "B.jpg"]) := by
  refine ⟨by decide, by decide⟩

/-- Claim C5, amended: `scan_images` yields the image files sorted ascending
by code point — case-SENSITIVELY, not case-insensitively — and the order is
deterministic: it depends only on the set of walked files, so repeated scans
of the same file set produce the identical sequence.  (Only when orphan
recovery restores at least one file is the list instead re-sorted
case-insensitively by `restore_missing_images`.) -/
theorem C5_scan_sorted_deterministic (dirExists : Bool) (files files' : List String) :
    List.Sorted fileLe (scanImages dirExists files) ∧
    (dirExists = true → (scanImages true files).Perm (files.filter isImage)) ∧
    (files.Perm files' → scanImages dirExists files = scanImages dirExists files') ∧
    (dirExists = false → scanImages false files = []) := by
  refine ⟨?_, fun _ => sortFiles_perm _, fun hp => ?_, fun _ => rfl⟩
  · unfold scanImages
    split
    · exact sortFiles_sorted _
    · exact List.sorted_nil
  · unfold scanImages
    split
    · exact List.eq_of_perm_of_sorted
        ((sortFiles_perm _).trans ((hp.filter isImage).trans (sortFiles_perm _).symm))
        (sortFiles_sorted _) (sortFiles_sorted _)
    · rfl

/-- Witness for `C5_scan_sorted_deterministic`: scanning the same two-file set
enumerated in either order gives the identical sequence. -/
theorem C5_scan_sorted_deterministic_witness :
    scanImages true ["b.jpg", "a.jpg"] = scanImages true ["a.jpg", "b.jpg"] :=
  (C5_scan_sorted_deterministic true ["b.jpg", "a.jpg"] ["a.jpg", "b.jpg"]).2.2.1 (by decide)

/-- JSON values as they occur in LabelFlow sidecar files: strings, integers,
lists of strings (the `label` field) and `null`. -/
inductive JVal where
  | jstr (s : String)
  | jnum (n : Nat)
  | jlist (l : List String)
  | jnull
deriving DecidableEq

/-- A parsed JSON object (Python dict) in insertion order. -/
abbrev JObj := List (String × JVal)

/-- Python dict lookup `d[k]` / `k in d` as an `Option`. -/
def jGet : JObj → String → Option JVal
  | [], _ => none
  | (k', v) :: rest, k => if k' = k then some v else jGet rest k

/-- Python `d.get(k, default)` for a string-valued field. -/
def jGetStrD (j : JObj) (k : String) (d : String) : String :=
  match jGet j k with
  | some (JVal.jstr s) => s
  | _ => d

/-- Python `d.get(k, [])` for the list-valued `label` and `labels` fields. -/
def jGetListD (j : JObj) (k : String) : List String :=
  match jGet j k with
  | some (JVal.jlist l) => l
  | _ => []

theorem jGet_dictSet_self (j : JObj) (k : String) (v : JVal) :
    jGet (dictSet j k v) k = some v := by
  induction j with
  | nil => simp [dictSet, jGet]
  | cons p rest ih =>
    obtain ⟨k', v'⟩ := p
    by_cases h : k' = k
    · simp [dictSet, jGet, h]
    · simp [dictSet, jGet, h, ih]

theorem jGet_dictSet_other (j : JObj) (k k' : String) (v : JVal) (hne : k ≠ k') :
    jGet (dictSet j k v) k' = jGet j k' := by
  induction j with
  | nil => simp [dictSet, jGet, hne]
  | cons p rest ih =>
    obtain ⟨k0, v0⟩ := p
    by_cases h : k0 = k
    · subst h
      simp [dictSet, jGet, hne]
    · simp [dictSet, jGet, h, ih]

/-- The `base64_data` refresh step inside
`DataManager._check_and_update_annotation_file`: only when base64 is enabled
and `calculate_base64` returned a truthy (non-`None`, non-empty) string is the
field overwritten. -/
def b64update (enableB64 : Bool) (newB64 : Option String) (j1 : JObj) : JObj :=
  if enableB64 then
    match newB64 with
    | some nb => if nb = "" then j1 else dictSet j1 "base64_data" (JVal.jstr nb)
    | none => j1
  else j1

/-- Model of `DataManager._check_and_update_annotation_file` acting on one
parsed sidecar object.  `imageHash` is the freshly computed content hash
(`""` stands for the falsy values `None` and the failure sentinel, both of
which make the method return immediately); `newB64` is the outcome of
`image_info.calculate_base64` (`none` when disabled, oversized or failed);
`fileSize` is `image_info.get_file_size()`.  Returns the resulting object and
whether the file was rewritten. -/
def checkAndUpdateSidecar (imageHash : String) (enableB64 : Bool)
    (newB64 : Option String) (fileSize : Nat) (j : JObj) : JObj × Bool :=
  if imageHash = "" then (j, false)
  else if jGetStrD j "hash" "" ≠ "" ∧ jGetStrD j "hash" "" ≠ imageHash then
    (dictSet (b64update enableB64 newB64 (dictSet j "hash" (JVal.jstr imageHash)))
      "file_size" (JVal.jnum fileSize), true)
  else (j, false)

theorem b64update_get_fresh {nb : String} (newB64 : Option String) (j1 : JObj)
    (hb : newB64 = some nb) (hnb : nb ≠ "") :
    jGet (b64update true newB64 j1) "base64_data" = some (JVal.jstr nb) := by
  subst hb
  simp only [b64update, if_pos rfl]
  rw [if_neg hnb]
  exact jGet_dictSet_self _ _ _

theorem b64update_get_keep (enableB64 : Bool) (newB64 : Option String) (j1 : JObj)
    (h : enableB64 = false ∨ newB64 = none ∨ newB64 = some "") :
    jGet (b64update enableB64 newB64 j1) "base64_data" = jGet j1 "base64_data" := by
  rcases h with h | h | h
  · simp [b64update, h]
  · simp [b64update, h]
  · simp [b64update, h]

theorem b64update_get_other (enableB64 : Bool) (newB64 : Option String) (j1 : JObj)
    (k : String) (hk : k ≠ "base64_data") :
    jGet (b64update enableB64 newB64 j1) k = jGet j1 k := by
  unfold b64update
  split
  · match newB64 with
    | some nb =>
      simp only
      split
      · rfl
      · exact jGet_dictSet_other _ _ _ _ (Ne.symm hk)
    | none => rfl
  · rfl

/-- Claim C3 counterexample: repairing a sidecar whose recorded `file_size` is
5 while the live file has size 7 rewrites `file_size` to 7 — a field other
than `hash` and `base64_data` is not left untouched. -/
theorem C3_file_size_counterexample :
    (checkAndUpdateSidecar "new" false none 7
      [("hash", JVal.jstr "old"), ("file_size", JVal.jnum 5)]).2 = true ∧
    jGet (checkAndUpdateSidecar "new" false none 7
      [("hash", JVal.jstr "old"), ("file_size", JVal.jnum 5)]).1 "file_size" =
      some (JVal.jnum 7) ∧
    jGet [("hash", JVal.jstr "old"), ("file_size", JVal.jnum 5)] "file_size" =
      some (JVal.jnum 5) ∧
    JVal.jnum 7 ≠ JVal.jnum 5 := by
  refine ⟨by decide, by decide, by decide, by decide⟩

/-- Claim C3, amended: on a stored-hash mismatch the repair rewrites the
sidecar with the corrected `hash`, a refreshed `base64_data` when one is
size-eligible, AND a refreshed `file_size`; every field other than these
three keeps its value.  When the stored hash is empty or agrees with the
computed hash, the sidecar is not modified at all, so a second repair run on
a repaired sidecar changes nothing. -/
theorem C3_hash_repair_frame (imageHash : String) (enableB64 : Bool)
    (newB64 : Option String) (fileSize : Nat) (j : JObj) :
    (jGetStrD j "hash" "" = "" ∨ jGetStrD j "hash" "" = imageHash ∨ imageHash = "" →
      checkAndUpdateSidecar imageHash enableB64 newB64 fileSize j = (j, false)) ∧
    (imageHash ≠ "" → jGetStrD j "hash" "" ≠ "" → jGetStrD j "hash" "" ≠ imageHash →
      (checkAndUpdateSidecar imageHash enableB64 newB64 fileSize j).2 = true ∧
      jGet (checkAndUpdateSidecar imageHash enableB64 newB64 fileSize j).1 "hash" =
        some (JVal.jstr imageHash) ∧
      jGet (checkAndUpdateSidecar imageHash enableB64 newB64 fileSize j).1 "file_size" =
        some (JVal.jnum fileSize) ∧
      (∀ nb, enableB64 = true → newB64 = some nb → nb ≠ "" →
        jGet (checkAndUpdateSidecar imageHash enableB64 newB64 fileSize j).1 "base64_data" =
          some (JVal.jstr nb)) ∧
      ((enableB64 = false ∨ newB64 = none ∨ newB64 = some "") →
        jGet (checkAndUpdateSidecar imageHash enableB64 newB64 fileSize j).1 "base64_data" =
          jGet j "base64_data") ∧
      (∀ k, k ≠ "hash" → k ≠ "base64_data" → k ≠ "file_size" →
        jGet (checkAndUpdateSidecar imageHash enableB64 newB64 fileSize j).1 k = jGet j k) ∧
      checkAndUpdateSidecar imageHash enableB64 newB64 fileSize
        (checkAndUpdateSidecar imageHash enableB64 newB64 fileSize j).1 =
        ((checkAndUpdateSidecar imageHash enableB64 newB64 fileSize j).1, false)) := by
  constructor
  · intro hcase
    unfold checkAndUpdateSidecar
    by_cases hih : imageHash = ""
    · rw [if_pos hih]
    · rw [if_neg hih, if_neg]
      rcases hcase with h | h | h
      · intro hc; exact hc.1 h
      · intro hc; exact hc.2 h
      · exact absurd h hih
  · intro hih hne hmm
    have hout : checkAndUpdateSidecar imageHash enableB64 newB64 fileSize j =
        (dictSet (b64update enableB64 newB64 (dictSet j "hash" (JVal.jstr imageHash)))
          "file_size" (JVal.jnum fileSize), true) := by
      unfold checkAndUpdateSidecar
      rw [if_neg hih, if_pos ⟨hne, hmm⟩]
    have hgethash : jGet (checkAndUpdateSidecar imageHash enableB64 newB64 fileSize j).1
        "hash" = some (JVal.jstr imageHash) := by
      rw [hout]
      simp only
      rw [jGet_dictSet_other _ _ _ _ (by decide),
        b64update_get_other _ _ _ _ (by decide)]
      exact jGet_dictSet_self _ _ _
    refine ⟨by rw [hout], hgethash, ?_, ?_, ?_, ?_, ?_⟩
    · rw [hout]
      exact jGet_dictSet_self _ _ _
    · intro nb hb heq hnbne
      rw [hout]
      simp only
      rw [jGet_dictSet_other _ _ _ _ (by decide), hb]
      exact b64update_get_fresh _ _ heq hnbne
    · intro hcase
      rw [hout]
      simp only
      rw [jGet_dictSet_other _ _ _ _ (by decide), b64update_get_keep _ _ _ hcase]
      exact jGet_dictSet_other _ _ _ _ (by decide)
    · intro k hk1 hk2 hk3
      rw [hout]
      simp only
      rw [jGet_dictSet_other _ _ _ _ (Ne.symm hk3),
        b64update_get_other _ _ _ _ hk2,
        jGet_dictSet_other _ _ _ _ (Ne.symm hk1)]
    · have hgX : jGet (dictSet (b64update enableB64 newB64
          (dictSet j "hash" (JVal.jstr imageHash))) "file_size" (JVal.jnum fileSize))
          "hash" = some (JVal.jstr imageHash) := by
        have h' := hgethash
        rw [hout] at h'
        exact h'
      rw [hout]
      simp only
      unfold checkAndUpdateSidecar
      rw [if_neg hih, if_neg]
      intro hc
      apply hc.2
      unfold jGetStrD
      rw [hgX]

/-- Witness for `C3_hash_repair_frame`: repairing a concrete mismatched
sidecar rewrites it and leaves the `describe` field untouched. -/
theorem C3_hash_repair_frame_witness :
    (checkAndUpdateSidecar "new" false none 7
      [("hash", JVal.jstr "old"), ("describe", JVal.jstr "d")]).2 = true ∧
    jGet (checkAndUpdateSidecar "new" false none 7
      [("hash", JVal.jstr "old"), ("describe", JVal.jstr "d")]).1 "describe" =
      some (JVal.jstr "d") := by
  have h := (C3_hash_repair_frame "new" false none 7
    [("hash", JVal.jstr "old"), ("describe", JVal.jstr "d")]).2
    (by decide) (by decide) (by decide)
  exact ⟨h.1, h.2.2.2.2.2.1 "describe" (by decide) (by decide) (by decide)⟩

/-- Whitespace test for the characters Python `str.strip` removes (ASCII
subset relevant to annotation text). -/
def isPySpace (c : Char) : Bool := c = ' ' || c = '\t' || c = '\n' || c = '\r'

/-- Python truthiness of `s.strip()`: true iff `s` has a non-whitespace
character. -/
def stripTruthy (s : String) : Bool := s.data.any (fun c => !(isPySpace c))

/-- Python `annotation_text.strip().startswith('\x7b')`. -/
def startsWithBrace (s : String) : Bool :=
  match s.data.dropWhile isPySpace with
  | c :: _ => c = '{'
  | [] => false

/-- An `ImageInfo.annotation` string, viewed structurally: either plain text
(not valid JSON) or the `json.dumps` of an object.  This mirrors the two ways
`data_manager.py` produces annotation strings. -/
inductive AnnVal where
  | text (s : String)
  | obj (j : JObj)
deriving DecidableEq

/-- Model of `DataManager._detect_annotation_mode`.  Plain text that does not
start with a brace falls through every branch and yields `None`; text starting
with a brace raises `json.JSONDecodeError` and yields `"description"`.  For an
object dump the V0.0.2 compatibility branch is checked first, then the
`describe`/`label` combinations. -/
def detectMode (compat : Bool) : AnnVal → Option String
  | AnnVal.text s =>
    if !stripTruthy s then none
    else if startsWithBrace s then some "description"
    else none
  | AnnVal.obj j =>
    if compat ∧ ¬ stripTruthy (jGetStrD j "describe" "") ∧ jGetListD j "label" = [] ∧
        stripTruthy (jGetStrD j "annotation" "") then some "description"
    else if stripTruthy (jGetStrD j "describe" "") ∧ jGetListD j "label" ≠ [] then some "mixed"
    else if jGetListD j "label" ≠ [] then some "label"
    else if stripTruthy (jGetStrD j "describe" "") then some "description"
    else none

/-- The emptiness test of `DataManager.find_first_unlabeled`: an entry has an
annotation iff the string is non-blank and — when it parses as JSON — has a
non-blank `describe`, or a non-empty `label` or legacy `labels` list. -/
def hasAnnot : AnnVal → Bool
  | AnnVal.text s => stripTruthy s
  | AnnVal.obj j =>
    stripTruthy (jGetStrD j "describe" "") || jGetListD j "label" ≠ [] ||
      jGetListD j "labels" ≠ []

/-- Loop of `DataManager.find_first_unlabeled`: walks the entries carrying the
first still-`None` detected mode and the first unannotated index. -/
def findFirstUnlabeledGo (compat : Bool) :
    Nat → Option String → Option Nat → List AnnVal → Nat × Option String
  | _, mode, firstIdx, [] => (firstIdx.getD 0, mode)
  | i, mode, firstIdx, a :: rest =>
    if hasAnnot a then
      findFirstUnlabeledGo compat (i + 1)
        (if mode = none then detectMode compat a else mode) firstIdx rest
    else
      findFirstUnlabeledGo compat (i + 1) mode
        (if firstIdx = none then some i else firstIdx) rest

/-- Model of `DataManager.find_first_unlabeled`: returns the new
`current_index` and the detected annotation mode. -/
def findFirstUnlabeled (compat : Bool) (entries : List AnnVal) : Nat × Option String :=
  findFirstUnlabeledGo compat 0 none none entries

theorem findFirstUnlabeledGo_spec (compat : Bool) (entries : List AnnVal) :
    ∀ (i : Nat) (mode : Option String) (firstIdx : Option Nat),
    findFirstUnlabeledGo compat i mode firstIdx entries =
      ((match firstIdx with
        | some k => some k
        | none => List.findIdx? (fun a => !hasAnnot a) entries i).getD 0,
       match mode with
       | some m => some m
       | none =>
         entries.findSome? (fun a => if hasAnnot a then detectMode compat a else none)) := by
  induction entries with
  | nil =>
    intro i mode firstIdx
    cases firstIdx <;> cases mode <;> rfl
  | cons a rest ih =>
    intro i mode firstIdx
    by_cases ha : hasAnnot a
    · rw [show findFirstUnlabeledGo compat i mode firstIdx (a :: rest) =
          findFirstUnlabeledGo compat (i + 1)
            (if mode = none then detectMode compat a else mode) firstIdx rest from by
        simp [findFirstUnlabeledGo, ha]]
      rw [ih]
      have hidx : List.findIdx? (fun a => !hasAnnot a) (a :: rest) i =
          List.findIdx? (fun a => !hasAnnot a) rest (i + 1) := by
        simp [List.findIdx?, ha]
      cases mode with
      | some m => simp [hidx]
      | none =>
        simp only [hidx]
        rw [List.findSome?_cons,
          show (if hasAnnot a then detectMode compat a else none) = detectMode compat a from
            if_pos ha]
        cases hd : detectMode compat a <;> simp [hd]
    · rw [show findFirstUnlabeledGo compat i mode firstIdx (a :: rest) =
          findFirstUnlabeledGo compat (i + 1) mode
            (if firstIdx = none then some i else firstIdx) rest from by
        simp [findFirstUnlabeledGo, ha]]
      rw [ih]
      have hfs : (a :: rest).findSome?
            (fun a => if hasAnnot a then detectMode compat a else none) =
          rest.findSome? (fun a => if hasAnnot a then detectMode compat a else none) := by
        rw [List.findSome?_cons]
        rw [show (if hasAnnot a then detectMode compat a else none) = none from
          if_neg (by simp [ha])]
      have hidx : List.findIdx? (fun a => !hasAnnot a) (a :: rest) i = some i := by
        simp [List.findIdx?, ha]
      cases firstIdx with
      | some k => simp [hfs]
      | none => simp [hidx, hfs]

/-- Claim C7 counterexample: the first non-empty entry carries only a legacy
`labels` field — non-empty by the scan's emptiness test, but its mode
classification is `None` — so `find_first_unlabeled` keeps scanning and
returns the mode of a LATER entry, not the classification of the first
non-empty entry. -/
theorem C7_mode_counterexample :
    hasAnnot (AnnVal.obj [("labels", JVal.jlist ["x"])]) = true ∧
    detectMode false (AnnVal.obj [("labels", JVal.jlist ["x"])]) = none ∧
    (findFirstUnlabeled false [AnnVal.obj [("labels", JVal.jlist ["x"])],
      AnnVal.obj [("describe", JVal.jstr "hi")]]).2 = some "description" ∧
    some "description" ≠ (none : Option String) := by
  refine ⟨by decide, by decide, by decide, by decide⟩

/-- Claim C7, amended: `find_first_unlabeled` sets `current_index` to the
index of the first entry whose annotation is empty under the scan's emptiness
test (which also counts a legacy `labels` list as content), or to 0 when none
is empty; it returns the first non-`None` mode classification among the
non-empty entries in scan order — not necessarily the classification of the
first non-empty entry, whose classification may be `None`.  In the five-entry
scenario with describe-annotations at 0, 1, 3 and empty entries at 2, 4 the
current index becomes 2. -/
theorem C7_find_first_unlabeled (compat : Bool) (entries : List AnnVal) :
    (findFirstUnlabeled compat entries).1 =
      (List.findIdx? (fun a => !hasAnnot a) entries 0).getD 0 ∧
    (findFirstUnlabeled compat entries).2 =
      entries.findSome? (fun a => if hasAnnot a then detectMode compat a else none) ∧
    (findFirstUnlabeled false
      [AnnVal.obj [("describe", JVal.jstr "a")], AnnVal.obj [("describe", JVal.jstr "b")],
        AnnVal.text "", AnnVal.obj [("describe", JVal.jstr "c")], AnnVal.text ""]).1 = 2 := by
  refine ⟨?_, ?_, by decide⟩
  · rw [findFirstUnlabeled, findFirstUnlabeledGo_spec]
  · rw [findFirstUnlabeled, findFirstUnlabeledGo_spec]

/-- The `describe` clause of `load_individual_annotations`: the field is
copied into the reconstructed object when present and truthy. -/
def describeField (j : JObj) : JObj :=
  match jGet j "describe" with
  | some (JVal.jstr s) => if s = "" then [] else [("describe", JVal.jstr s)]
  | _ => []

/-- The `label` clause of `load_individual_annotations`: the field is copied
when present and non-empty. -/
def labelField (j : JObj) : JObj :=
  match jGet j "label" with
  | some (JVal.jlist l) => if l = [] then [] else [("label", JVal.jlist l)]
  | _ => []

/-- The V0.0.2 compatibility clause of `load_individual_annotations`: in
compatibility mode a truthy legacy `annotation` field is copied, and doubles
as `describe` when no `describe` key was reconstructed yet. -/
def legacyField (compat : Bool) (j : JObj) (r2 : JObj) : JObj :=
  if compat then
    match jGet j "annotation" with
    | some (JVal.jstr t) =>
      if t = "" then r2
      else
        r2 ++ [("annotation", JVal.jstr t)] ++
          (match jGet r2 "describe" with
            | some _ => []
            | none => [("describe", JVal.jstr t)])
    | _ => r2
  else r2

/-- Model of the per-sidecar decode step of
`DataManager.load_individual_annotations`: a file without a `hash` key is
skipped entirely; otherwise the reconstructed object combines the `describe`,
`label` and (compatibility-mode) legacy `annotation` clauses, and is stored
only when non-empty. -/
def reconstructAnnot (compat : Bool) (j : JObj) : Option JObj :=
  match jGet j "hash" with
  | none => none
  | some _ =>
    if legacyField compat j (describeField j ++ labelField j) = [] then none
    else some (legacyField compat j (describeField j ++ labelField j))

/-- Claim C6 counterexample: in the default configuration (compatibility mode
OFF) a sidecar carrying only a legacy `annotation` field decodes to nothing at
all — no `describe` is reconstructed and mode detection yields `None`, not
`"description"`. -/
theorem C6_compat_off_counterexample :
    reconstructAnnot false [("hash", JVal.jstr "h"), ("annotation", JVal.jstr "hello")] =
      none ∧
    detectMode false
      (AnnVal.obj [("hash", JVal.jstr "h"), ("annotation", JVal.jstr "hello")]) = none ∧
    (none : Option JObj) ≠
      some [("describe", JVal.jstr "hello")] ∧
    (none : Option String) ≠ some "description" := by
  refine ⟨by decide, by decide, by decide, by decide⟩

/-- Claim C6, amended: WHEN COMPATIBILITY MODE IS ENABLED, a sidecar that
carries a `hash` and only a legacy `annotation` field holding plain non-blank
text (no `describe`, no `label` fields) decodes to an annotation whose
`describe` equals that text and whose label sequence is empty, and mode
detection classifies the reconstructed annotation as `"description"`.  With
compatibility mode off (the default) the legacy field is ignored (see the
counterexample). -/
theorem C6_legacy_fallback (j : JObj) (t : String)
    (hhash : jGet j "hash" ≠ none)
    (hdesc : jGet j "describe" = none)
    (hlabel : jGet j "label" = none)
    (hann : jGet j "annotation" = some (JVal.jstr t))
    (ht : stripTruthy t = true) :
    reconstructAnnot true j =
      some [("annotation", JVal.jstr t), ("describe", JVal.jstr t)] ∧
    jGetStrD [("annotation", JVal.jstr t), ("describe", JVal.jstr t)] "describe" "" = t ∧
    jGetListD [("annotation", JVal.jstr t), ("describe", JVal.jstr t)] "label" = [] ∧
    detectMode true
      (AnnVal.obj [("annotation", JVal.jstr t), ("describe", JVal.jstr t)]) =
      some "description" := by
  have htne : t ≠ "" := by
    intro h
    rw [h] at ht
    exact Bool.noConfusion ht
  have hr2 : describeField j ++ labelField j = [] := by
    unfold describeField labelField
    rw [hdesc, hlabel]
    rfl
  have hleg : legacyField true j (describeField j ++ labelField j) =
      [("annotation", JVal.jstr t), ("describe", JVal.jstr t)] := by
    unfold legacyField
    rw [if_pos rfl, hann, hr2]
    simp [jGet, htne]
  refine ⟨?_, ?_, ?_, ?_⟩
  · unfold reconstructAnnot
    cases hh : jGet j "hash" with
    | none => exact absurd hh hhash
    | some v =>
      rw [hleg]
      simp
  · unfold jGetStrD jGet
    rw [if_neg (by decide)]
    simp [jGet]
  · unfold jGetListD jGet
    rw [if_neg (by decide)]
    simp [jGet]
  · have hd : jGetStrD [("annotation", JVal.jstr t), ("describe", JVal.jstr t)]
        "describe" "" = t := by
      unfold jGetStrD jGet
      rw [if_neg (by decide)]
      simp [jGet]
    have ha : jGetStrD [("annotation", JVal.jstr t), ("describe", JVal.jstr t)]
        "annotation" "" = t := by
      unfold jGetStrD jGet
      simp
    have hl : jGetListD [("annotation", JVal.jstr t), ("describe", JVal.jstr t)]
        "label" = [] := by
      unfold jGetListD jGet
      rw [if_neg (by decide)]
      simp [jGet]
    simp only [detectMode]
    rw [hd, ha, hl]
    rw [if_neg (by simp [ht]), if_neg (by simp), if_neg (by simp), if_pos (by simp [ht])]

/-- Witness for `C6_legacy_fallback` at a concrete legacy-only sidecar. -/
theorem C6_legacy_fallback_witness :
    reconstructAnnot true [("hash", JVal.jstr "h"), ("annotation", JVal.jstr "hello")] =
      some [("annotation", JVal.jstr "hello"), ("describe", JVal.jstr "hello")] ∧
    detectMode true
      (AnnVal.obj [("annotation", JVal.jstr "hello"), ("describe", JVal.jstr "hello")]) =
      some "description" := by
  have h := C6_legacy_fallback [("hash", JVal.jstr "h"), ("annotation", JVal.jstr "hello")]
    "hello" (by decide) (by decide) (by decide) (by decide) (by decide)
  exact ⟨h.1, h.2.2.2⟩

/-- Standard base64 alphabet used by Python `base64.b64encode`. -/
def b64Alphabet : List Char :=
  "ABCDEFGHIJKLMNOPQRSTUVWXYZabcdefghijklmnopqrstuvwxyz0123456789+/".toList

/-- Character for a six-bit value. -/
def sextetChar (n : Nat) : Char := b64Alphabet.getD n 'A'

/-- Six-bit value of an alphabet character (`b64Alphabet.indexOf`). -/
def charSextet (c : Char) : Nat := b64Alphabet.indexOf c

/-- Model of Python `base64.b64encode` on a byte list: standard base64 with
`'='` padding. -/
def b64encode : List Nat → List Char
  | [] => []
  | [a] => [sextetChar (a / 4), sextetChar (a % 4 * 16), '=', '=']
  | [a, b] =>
    [sextetChar (a / 4), sextetChar (a % 4 * 16 + b / 16), sextetChar (b % 16 * 4), '=']
  | a :: b :: c :: rest =>
    sextetChar (a / 4) :: sextetChar (a % 4 * 16 + b / 16) ::
      sextetChar (b % 16 * 4 + c / 64) :: sextetChar (c % 64) :: b64encode rest

/-- Reassembles bytes from a padding-stripped list of six-bit values (the core
of `base64.b64decode`). -/
def sextetsToBytes : List Nat → List Nat
  | [s1, s2] => [s1 * 4 + s2 / 16]
  | [s1, s2, s3] => [s1 * 4 + s2 / 16, s2 % 16 * 16 + s3 / 4]
  | s1 :: s2 :: s3 :: s4 :: rest =>
    (s1 * 4 + s2 / 16) :: (s2 % 16 * 16 + s3 / 4) :: (s3 % 4 * 64 + s4) ::
      sextetsToBytes rest
  | _ => []

/-- The character filter of Python `base64.b64decode` with `validate=False`:
characters outside the alphabet and padding are silently discarded. -/
def b64Keep (c : Char) : Bool := b64Alphabet.contains c || c == '='

/-- Padding-strip predicate. -/
def b64NotPad (c : Char) : Bool := c != '='

/-- Model of Python `base64.b64decode` (default `validate=False`): characters
outside the alphabet and padding are discarded, a length not divisible by four
raises `binascii.Error` (modelled as `none`), otherwise the padding is
stripped and the six-bit groups are reassembled into bytes. -/
def pyB64decode (l : List Char) : Option (List Nat) :=
  if (l.filter b64Keep).length % 4 = 0 then
    some (sextetsToBytes (((l.filter b64Keep).filter b64NotPad).map charSextet))
  else none

theorem charSextet_sextetChar : ∀ s < 64, charSextet (sextetChar s) = s := by decide

theorem sextetChar_keep : ∀ s < 64, b64Keep (sextetChar s) = true := by decide

theorem sextetChar_notPad : ∀ s < 64, b64NotPad (sextetChar s) = true := by decide

theorem b64encode_one (a : Nat) :
    b64encode [a] = [sextetChar (a / 4), sextetChar (a % 4 * 16), '=', '='] := by
  simp [b64encode]

theorem b64encode_two (a b : Nat) :
    b64encode [a, b] =
      [sextetChar (a / 4), sextetChar (a % 4 * 16 + b / 16), sextetChar (b % 16 * 4), '='] := by
  simp [b64encode]

theorem b64encode_chunk (a b c : Nat) (rest : List Nat) :
    b64encode (a :: b :: c :: rest) =
      sextetChar (a / 4) :: sextetChar (a % 4 * 16 + b / 16) ::
        sextetChar (b % 16 * 4 + c / 64) :: sextetChar (c % 64) :: b64encode rest := by
  simp [b64encode]

theorem b64encode_all_kept : ∀ l : List Nat, (∀ b ∈ l, b < 256) →
    (b64encode l).filter b64Keep = b64encode l := by
  intro l
  induction l using b64encode.induct with
  | case1 =>
    intro _
    rfl
  | case2 a =>
    intro h
    have ha := h a (by simp)
    rw [b64encode_one]
    rw [List.filter_cons_of_pos (sextetChar_keep (a / 4) (by omega)),
      List.filter_cons_of_pos (sextetChar_keep (a % 4 * 16) (by omega)),
      List.filter_cons_of_pos (by decide), List.filter_cons_of_pos (by decide),
      List.filter_nil]
  | case3 a b =>
    intro h
    have ha := h a (by simp)
    have hb := h b (by simp)
    rw [b64encode_two]
    rw [List.filter_cons_of_pos (sextetChar_keep (a / 4) (by omega)),
      List.filter_cons_of_pos (sextetChar_keep (a % 4 * 16 + b / 16) (by omega)),
      List.filter_cons_of_pos (sextetChar_keep (b % 16 * 4) (by omega)),
      List.filter_cons_of_pos (by decide), List.filter_nil]
  | case4 a b c rest ih =>
    intro h
    have ha := h a (by simp)
    have hb := h b (by simp)
    have hc := h c (by simp)
    have hrest : ∀ x ∈ rest, x < 256 := fun x hx => h x (by simp [hx])
    rw [b64encode_chunk]
    rw [List.filter_cons_of_pos (sextetChar_keep (a / 4) (by omega)),
      List.filter_cons_of_pos (sextetChar_keep (a % 4 * 16 + b / 16) (by omega)),
      List.filter_cons_of_pos (sextetChar_keep (b % 16 * 4 + c / 64) (by omega)),
      List.filter_cons_of_pos (sextetChar_keep (c % 64) (by omega)), ih hrest]

theorem b64encode_length_mod4 : ∀ l : List Nat, (b64encode l).length % 4 = 0 := by
  intro l
  induction l using b64encode.induct with
  | case1 => rfl
  | case2 a =>
    rw [b64encode_one]
    simp
  | case3 a b =>
    rw [b64encode_two]
    simp
  | case4 a b c rest ih =>
    rw [b64encode_chunk]
    simp only [List.length_cons]
    omega

theorem b64_decode_core : ∀ l : List Nat, (∀ b ∈ l, b < 256) →
    sextetsToBytes (((b64encode l).filter b64NotPad).map charSextet) = l := by
  intro l
  induction l using b64encode.induct with
  | case1 =>
    intro _
    rfl
  | case2 a =>
    intro h
    have ha := h a (by simp)
    rw [b64encode_one]
    rw [List.filter_cons_of_pos (sextetChar_notPad (a / 4) (by omega)),
      List.filter_cons_of_pos (sextetChar_notPad (a % 4 * 16) (by omega)),
      List.filter_cons_of_neg (by decide), List.filter_cons_of_neg (by decide),
      List.filter_nil, List.map_cons, List.map_cons, List.map_nil,
      charSextet_sextetChar (a / 4) (by omega),
      charSextet_sextetChar (a % 4 * 16) (by omega)]
    show [a / 4 * 4 + a % 4 * 16 / 16] = [a]
    have : a / 4 * 4 + a % 4 * 16 / 16 = a := by omega
    rw [this]
  | case3 a b =>
    intro h
    have ha := h a (by simp)
    have hb := h b (by simp)
    rw [b64encode_two]
    rw [List.filter_cons_of_pos (sextetChar_notPad (a / 4) (by omega)),
      List.filter_cons_of_pos (sextetChar_notPad (a % 4 * 16 + b / 16) (by omega)),
      List.filter_cons_of_pos (sextetChar_notPad (b % 16 * 4) (by omega)),
      List.filter_cons_of_neg (by decide), List.filter_nil,
      List.map_cons, List.map_cons, List.map_cons, List.map_nil,
      charSextet_sextetChar (a / 4) (by omega),
      charSextet_sextetChar (a % 4 * 16 + b / 16) (by omega),
      charSextet_sextetChar (b % 16 * 4) (by omega)]
    show [a / 4 * 4 + (a % 4 * 16 + b / 16) / 16,
      (a % 4 * 16 + b / 16) % 16 * 16 + b % 16 * 4 / 4] = [a, b]
    have h1 : a / 4 * 4 + (a % 4 * 16 + b / 16) / 16 = a := by omega
    have h2 : (a % 4 * 16 + b / 16) % 16 * 16 + b % 16 * 4 / 4 = b := by omega
    rw [h1, h2]
  | case4 a b c rest ih =>
    intro h
    have ha := h a (by simp)
    have hb := h b (by simp)
    have hc := h c (by simp)
    have hrest : ∀ x ∈ rest, x < 256 := fun x hx => h x (by simp [hx])
    rw [b64encode_chunk]
    rw [List.filter_cons_of_pos (sextetChar_notPad (a / 4) (by omega)),
      List.filter_cons_of_pos (sextetChar_notPad (a % 4 * 16 + b / 16) (by omega)),
      List.filter_cons_of_pos (sextetChar_notPad (b % 16 * 4 + c / 64) (by omega)),
      List.filter_cons_of_pos (sextetChar_notPad (c % 64) (by omega)),
      List.map_cons, List.map_cons, List.map_cons, List.map_cons,
      charSextet_sextetChar (a / 4) (by omega),
      charSextet_sextetChar (a % 4 * 16 + b / 16) (by omega),
      charSextet_sextetChar (b % 16 * 4 + c / 64) (by omega),
      charSextet_sextetChar (c % 64) (by omega)]
    simp only [sextetsToBytes]
    have h1 : a / 4 * 4 + (a % 4 * 16 + b / 16) / 16 = a := by omega
    have h2 : (a % 4 * 16 + b / 16) % 16 * 16 + (b % 16 * 4 + c / 64) / 4 = b := by omega
    have h3 : (b % 16 * 4 + c / 64) % 4 * 64 + c % 64 = c := by omega
    rw [h1, h2, h3, ih hrest]

theorem pyB64_roundtrip (l : List Nat) (h : ∀ b ∈ l, b < 256) :
    pyB64decode (b64encode l) = some l := by
  unfold pyB64decode
  rw [b64encode_all_kept l h, if_pos (b64encode_length_mod4 l), b64_decode_core l h]

/-- Content of a file in the modelled working directory: raw bytes (images,
or a `.json`-named file that is not JSON at all) or a parsed sidecar object
(`none` when the JSON text is unparseable — `json.load` raises). -/
inductive FContent where
  | bytes (bs : List Nat)
  | sidecarJson (s : Option JObj)
deriving DecidableEq

/-- The discovered-image basenames (lowered, extension stripped) collected by
`restore_missing_images` from the entries `scan_images` just produced. -/
def existingBaseNames (dir : List (String × FContent)) : List String :=
  (dir.filter (fun e => isImage e.1)).map (fun e => lowerStr (splitExt e.1).1)

/-- Final stage of `DataManager._restore_image_from_base64`: write the decoded
bytes to the recorded file name unless a file already exists at that path. -/
def restoreWrite (st : List (String × FContent) × Nat) (dec : Option (List Nat))
    (fn : String) : List (String × FContent) × Nat :=
  match dec with
  | none => st
  | some bs =>
    if fn ∈ st.1.map Prod.fst then st
    else (st.1 ++ [(fn, FContent.bytes bs)], st.2 + 1)

/-- Decode-and-write stage for one orphaned sidecar with truthy `base64_data`
`d` and recorded `filename` `fn`. -/
def restoreFromFields (st : List (String × FContent) × Nat) (d fn : String) :
    List (String × FContent) × Nat :=
  if d = "" then st else restoreWrite st (pyB64decode d.data) fn

/-- One iteration of the `restore_missing_images` loop over a directory entry:
non-JSON names and the reserved `labels.json`/`labels_cache.json` are skipped;
a sidecar whose basename matches a discovered image is skipped; otherwise the
sidecar must parse, carry a truthy `base64_data` and a `filename`, the base64
must decode, and the target must not exist — then the decoded bytes are
written as a new file and the restored count incremented.  Every failure
leaves the state unchanged and the loop continues. -/
def restoreStep (existing : List String) (st : List (String × FContent) × Nat)
    (e : String × FContent) : List (String × FContent) × Nat :=
  if ".json".data.isSuffixOf (lowerStr e.1).data ∧
      e.1 ≠ "labels.json" ∧ e.1 ≠ "labels_cache.json" then
    if lowerStr (splitExt e.1).1 ∈ existing then st
    else
      match e.2 with
      | FContent.sidecarJson (some j) =>
        match jGet j "base64_data", jGet j "filename" with
        | some (JVal.jstr d), some (JVal.jstr fn) => restoreFromFields st d fn
        | _, _ => st
      | _ => st
  else st

/-- Model of `DataManager.restore_missing_images` on a flat directory: the
walk list is fixed before the loop, and the existing-image set is collected
once up front. -/
def restoreMissingImages (dir : List (String × FContent)) :
    List (String × FContent) × Nat :=
  dir.foldl (restoreStep (existingBaseNames dir)) (dir, 0)

/-- What claim C2 requires of every file the recovery pass wrote: it came from
an orphaned, parseable sidecar in the directory, named by that sidecar's
recorded `filename`, with content the base64 decoding of its non-empty
`base64_data`. -/
def restoredOk (dir : List (String × FContent)) (p : String × FContent) : Prop :=
  ∃ sname j d bs,
    (sname, FContent.sidecarJson (some j)) ∈ dir ∧
    lowerStr (splitExt sname).1 ∉ existingBaseNames dir ∧
    jGet j "filename" = some (JVal.jstr p.1) ∧
    jGet j "base64_data" = some (JVal.jstr d) ∧ d ≠ "" ∧
    pyB64decode d.data = some bs ∧ p.2 = FContent.bytes bs

theorem restoreStep_cases (existing : List String)
    (st : List (String × FContent) × Nat) (e : String × FContent) :
    restoreStep existing st e = st ∨
    ∃ j d bs fn,
      e.2 = FContent.sidecarJson (some j) ∧
      lowerStr (splitExt e.1).1 ∉ existing ∧
      jGet j "filename" = some (JVal.jstr fn) ∧
      jGet j "base64_data" = some (JVal.jstr d) ∧ d ≠ "" ∧
      pyB64decode d.data = some bs ∧
      fn ∉ st.1.map Prod.fst ∧
      restoreStep existing st e = (st.1 ++ [(fn, FContent.bytes bs)], st.2 + 1) := by
  obtain ⟨nm, c⟩ := e
  unfold restoreStep
  by_cases h1 : ".json".data.isSuffixOf (lowerStr nm).data ∧
      nm ≠ "labels.json" ∧ nm ≠ "labels_cache.json"
  · rw [if_pos h1]
    by_cases h2 : lowerStr (splitExt nm).1 ∈ existing
    · rw [if_pos h2]
      exact Or.inl rfl
    · rw [if_neg h2]
      cases c with
      | bytes bs => exact Or.inl rfl
      | sidecarJson s =>
        cases s with
        | none => exact Or.inl rfl
        | some j =>
          simp only
          rcases hdd : jGet j "base64_data" with _ | dv
          · exact Or.inl rfl
          · cases dv with
            | jnum n => exact Or.inl rfl
            | jlist l => exact Or.inl rfl
            | jnull => exact Or.inl rfl
            | jstr d =>
              rcases hff : jGet j "filename" with _ | fv
              · exact Or.inl rfl
              · cases fv with
                | jnum n => exact Or.inl rfl
                | jlist l => exact Or.inl rfl
                | jnull => exact Or.inl rfl
                | jstr fn =>
                  by_cases hde : d = ""
                  · subst hde
                    exact Or.inl rfl
                  · rcases hbs : pyB64decode d.data with _ | bs
                    · refine Or.inl ?_
                      show restoreFromFields st d fn = st
                      unfold restoreFromFields
                      rw [if_neg hde, hbs]
                      rfl
                    · by_cases hfr : fn ∈ st.1.map Prod.fst
                      · refine Or.inl ?_
                        show restoreFromFields st d fn = st
                        unfold restoreFromFields
                        rw [if_neg hde, hbs]
                        show (if fn ∈ st.1.map Prod.fst then st
                          else (st.1 ++ [(fn, FContent.bytes bs)], st.2 + 1)) = st
                        rw [if_pos hfr]
                      · refine Or.inr ⟨j, d, bs, fn, rfl, h2, hff, hdd, hde, hbs, hfr, ?_⟩
                        show restoreFromFields st d fn = _
                        unfold restoreFromFields
                        rw [if_neg hde, hbs]
                        show (if fn ∈ st.1.map Prod.fst then st
                          else (st.1 ++ [(fn, FContent.bytes bs)], st.2 + 1)) = _
                        rw [if_neg hfr]
  · rw [if_neg h1]
    exact Or.inl rfl

theorem restore_fold_invariant (dir : List (String × FContent)) :
    ∀ (entries : List (String × FContent)) (st : List (String × FContent) × Nat),
    (∀ e ∈ entries, e ∈ dir) →
    (∃ news, st.1 = dir ++ news ∧ (∀ p ∈ news, restoredOk dir p)) →
    ∃ news, (entries.foldl (restoreStep (existingBaseNames dir)) st).1 = dir ++ news ∧
      (∀ p ∈ news, restoredOk dir p) := by
  intro entries
  induction entries with
  | nil =>
    intro st _ hinv
    exact hinv
  | cons e rest ih =>
    intro st hmem hinv
    obtain ⟨news, hst, hok⟩ := hinv
    rw [List.foldl_cons]
    apply ih _ (fun x hx => hmem x (List.mem_cons_of_mem _ hx))
    rcases restoreStep_cases (existingBaseNames dir) st e with hcase | hcase
    · exact ⟨news, by rw [hcase, hst], hok⟩
    · obtain ⟨j, d, bs, fn, hj, horph, hfn, hd, hdne, hbs, _, hstep⟩ := hcase
    
      refine ⟨news ++ [(fn, FContent.bytes bs)], by rw [hstep]; simp [hst], ?_⟩
      intro p hp
      rcases List.mem_append.mp hp with hp | hp
      · exact hok p hp
      · have hpe : p = (fn, FContent.bytes bs) := by simpa using hp
        subst hpe
        have hedir : e ∈ dir := hmem e (List.mem_cons_self _ _)
        refine ⟨e.1, j, d, bs, ?_, horph, hfn, hd, hdne, hbs, rfl⟩
        have : (e.1, e.2) = e := rfl
        rw [hj] at this
        rw [← this] at hedir
        exact hedir

theorem restore_nodup_invariant (dir : List (String × FContent)) :
    ∀ (entries : List (String × FContent)) (st : List (String × FContent) × Nat),
    (st.1.map Prod.fst).Nodup →
    ((entries.foldl (restoreStep (existingBaseNames dir)) st).1.map Prod.fst).Nodup := by
  intro entries
  induction entries with
  | nil =>
    intro st h
    exact h
  | cons e rest ih =>
    intro st h
    rw [List.foldl_cons]
    apply ih
    rcases restoreStep_cases (existingBaseNames dir) st e with hcase | hcase
    · rw [hcase]
      exact h
    · obtain ⟨j, d, bs, fn, _, _, _, _, _, _, hfresh, hstep⟩ := hcase
      rw [hstep]
      simp only [List.map_append, List.map_cons, List.map_nil]
      rw [List.nodup_append]
      exact ⟨h, List.nodup_singleton _, by simpa using hfresh⟩

/-- Claim C2, confirmed: orphan recovery only appends files — every
pre-existing directory entry survives byte-for-byte and each written file's
name was not previously taken (never overwrite, and distinct file names stay
distinct); every written file is named by an orphaned sidecar's recorded
`filename` and holds exactly the base64 decoding of its non-empty
`base64_data` — which by the round-trip conjunct is byte-identical to the
originally encoded bytes; and a sidecar that fails (unparseable JSON, or a
`.json`-named file holding raw bytes) leaves the state unchanged, so the scan
of the remaining entries proceeds. -/
theorem C2_orphan_recovery (dir : List (String × FContent)) :
    (∃ news, (restoreMissingImages dir).1 = dir ++ news ∧
      (∀ p ∈ news, restoredOk dir p)) ∧
    ((dir.map Prod.fst).Nodup → ((restoreMissingImages dir).1.map Prod.fst).Nodup) ∧
    (∀ orig : List Nat, (∀ b ∈ orig, b < 256) →
      pyB64decode (b64encode orig) = some orig) ∧
    (∀ existing st n, restoreStep existing st (n, FContent.sidecarJson none) = st) ∧
    (∀ existing st n bs, restoreStep existing st (n, FContent.bytes bs) = st) := by
  refine ⟨?_, ?_, fun orig h => pyB64_roundtrip orig h, ?_, ?_⟩
  · exact restore_fold_invariant dir dir (dir, 0) (fun _ hx => hx)
      ⟨[], by simp, by simp⟩
  · intro h
    exact restore_nodup_invariant dir dir (dir, 0) h
  · intro existing st n
    unfold restoreStep
    split
    · split
      · rfl
      · rfl
    · rfl
  · intro existing st n bs
    unfold restoreStep
    split
    · split
      · rfl
      · rfl
    · rfl

/-- Witness for `C2_orphan_recovery`: the round-trip conjunct at concrete
bytes, plus the spec's own scenario — a directory with only `a.json`
embedding the bytes of `a.jpg` ends up with `a.jpg` holding those bytes. -/
theorem C2_orphan_recovery_witness :
    pyB64decode (b64encode [10, 20, 30]) = some [10, 20, 30] ∧
    (restoreMissingImages
      [("a.json", FContent.sidecarJson (some [("filename", JVal.jstr "a.jpg"),
        ("base64_data", JVal.jstr ⟨b64encode [10, 20, 30]⟩)]))]).1 =
      [("a.json", FContent.sidecarJson (some [("filename", JVal.jstr "a.jpg"),
        ("base64_data", JVal.jstr ⟨b64encode [10, 20, 30]⟩)])),
       ("a.jpg", FContent.bytes [10, 20, 30])] := by
  refine ⟨(C2_orphan_recovery []).2.2.1 [10, 20, 30] (by decide), by decide⟩

/-- The new name assigned by `rename_all_images` to the image at sorted
position `i` with original extension `ext`: the Python expression
`f"IMG_{i:06d}{ext}"`. -/
def imgTarget (i : Nat) (ext : String) : String := "IMG_" ++ pad6 i ++ ext

/-- State threaded through `rename_all_images`: the live directory listing
(`os.path.exists` and `os.rename` act on it), the running renamed count, the
old-basename → new-basename `rename_map` (most recent binding first, matching
Python dict overwrite), and whether any rename was skipped because its
destination already existed. -/
structure RenState where
  files : List String
  count : Nat
  rmap : List (String × String)
  collided : Bool
deriving DecidableEq

/-- Body of the image loop of `rename_all_images` for the sorted position `i`
holding file `old`: skip when the new name equals the old one; skip (and
remember the collision) when the destination exists; otherwise
`os.rename(old, new)`, record the basename mapping and count the rename. -/
def imgStep (st : RenState) (i : Nat) (old : String) : RenState :=
  if old = imgTarget i (splitExt old).2 then st
  else if imgTarget i (splitExt old).2 ∈ st.files then { st with collided := true }
  else
    { files := st.files.erase old ++ [imgTarget i (splitExt old).2],
      count := st.count + 1,
      rmap := ((splitExt old).1, "IMG_" ++ pad6 i) :: st.rmap,
      collided := st.collided }

/-- The image loop of `rename_all_images`, enumerating the sorted image files
from index `i` upward. -/
def imgPhase : Nat → List String → RenState → RenState
  | _, [], st => st
  | i, old :: rest, st => imgPhase (i + 1) rest (imgStep st i old)

/-- Body of the sidecar loop of `rename_all_images`: a JSON file whose
basename was renamed is rewritten under the new basename (`open(..., 'w')`
creates the file, silently overwriting an existing one) and the old file is
removed; the rewrite counts as one more rename. -/
def jsonStep (st : RenState) (jname : String) : RenState :=
  match List.lookup (splitExt jname).1 st.rmap with
  | none => st
  | some nb =>
    { st with
        files := (if nb ++ ".json" ∈ st.files then st.files
          else st.files ++ [nb ++ ".json"]).erase jname,
        count := st.count + 1 }

/-- The sidecar loop of `rename_all_images`. -/
def jsonPhase (js : List String) (st : RenState) : RenState := js.foldl jsonStep st

/-- Model of `DataManager.rename_all_images` on a flat working directory `fs`:
both file lists are collected and sorted before any rename happens, then the
image loop runs, then the sidecar loop. -/
def renameAllFiles (fs : List String) : RenState :=
  jsonPhase (sortFiles (fs.filter isJsonCandidate))
    (imgPhase 0 (sortFiles (fs.filter isImage)) ⟨fs, 0, [], false⟩)

/-- Claim C1 counterexample: directory `A.jpg`, `IMG_000000.jpg`.  The first
run skips `A.jpg` (its destination `IMG_000000.jpg` exists) and renames
`IMG_000000.jpg` to `IMG_000001.jpg`; the freed name lets the second run
rename `A.jpg`, so the second run renames 1 file, not 0. -/
theorem C1_idempotence_counterexample :
    (renameAllFiles ["A.jpg", "IMG_000000.jpg"]).count = 1 ∧
    (renameAllFiles ["A.jpg", "IMG_000000.jpg"]).files = ["A.jpg", "IMG_000001.jpg"] ∧
    (renameAllFiles (renameAllFiles ["A.jpg", "IMG_000000.jpg"]).files).count = 1 ∧
    (1 : Nat) ≠ 0 := by
  refine ⟨by decide, by decide, by decide, by decide⟩

theorem lexLtChars_append_left (p : List Char) :
    ∀ x y, lexLtChars (p ++ x) (p ++ y) = lexLtChars x y := by
  induction p with
  | nil => intro x y; rfl
  | cons c cs ih =>
    intro x y
    show lexLtChars (c :: (cs ++ x)) (c :: (cs ++ y)) = _
    simp [lexLtChars, lt_irrefl, ih]

theorem lexLtChars_append_of_lt :
    ∀ (a b : List Char), lexLtChars a b = true → a.length = b.length →
    ∀ u v, lexLtChars (a ++ u) (b ++ v) = true := by
  intro a
  induction a with
  | nil =>
    intro b h hlen u v
    cases b with
    | nil => exact absurd h (by simp [lexLtChars])
    | cons y ys => simp at hlen
  | cons x xs ih =>
    intro b h hlen u v
    cases b with
    | nil => simp at hlen
    | cons y ys =>
      by_cases hxy : x < y
      · show lexLtChars (x :: (xs ++ u)) (y :: (ys ++ v)) = true
        simp [lexLtChars, hxy]
      · by_cases hyx : y < x
        · simp [lexLtChars, hxy, hyx] at h
        · have hxey : x = y := le_antisymm (not_lt.mp hyx) (not_lt.mp hxy)
          subst hxey
          simp [lexLtChars, lt_irrefl] at h
          show lexLtChars (x :: (xs ++ u)) (x :: (ys ++ v)) = true
          simp only [lexLtChars, lt_irrefl, if_neg (lt_irrefl x)]
          exact ih ys h (by simpa using hlen) u v

theorem digitChar_strictMono : ∀ a < 10, ∀ b < 10, a < b →
    Nat.digitChar a < Nat.digitChar b := by decide

theorem digitChar_ne_dot : ∀ d < 10, Nat.digitChar d ≠ '.' := by decide

theorem padDigits_length : ∀ k i, (padDigits k i).length = k := by
  intro k
  induction k with
  | zero => intro i; rfl
  | succ k ih => intro i; simp [padDigits, ih]

theorem padDigits_digits : ∀ k i, i < 10 ^ k →
    ∀ c ∈ padDigits k i, ∃ d, d < 10 ∧ c = Nat.digitChar d := by
  intro k
  induction k with
  | zero => intro i _ c hc; simp [padDigits] at hc
  | succ k ih =>
    intro i hi c hc
    have hp : 0 < 10 ^ k := Nat.pos_pow_of_pos k (by norm_num)
    simp only [padDigits, List.mem_cons] at hc
    rcases hc with rfl | hc
    · refine ⟨i / 10 ^ k, ?_, rfl⟩
      rw [Nat.div_lt_iff_lt_mul hp]
      calc i < 10 ^ (k + 1) := hi
        _ = 10 * 10 ^ k := by ring
    · exact ih (i % 10 ^ k) (Nat.mod_lt _ hp) c hc

theorem padDigits_no_dot (k i : Nat) (hi : i < 10 ^ k) : ∀ c ∈ padDigits k i, c ≠ '.' := by
  intro c hc
  obtain ⟨d, hd, rfl⟩ := padDigits_digits k i hi c hc
  exact digitChar_ne_dot d hd

theorem padDigits_lexLt : ∀ (k i j : Nat), i < j → j < 10 ^ k →
    lexLtChars (padDigits k i) (padDigits k j) = true := by
  intro k
  induction k with
  | zero =>
    intro i j hij hj
    simp at hj
    omega
  | succ k ih =>
    intro i j hij hj
    have hp : 0 < 10 ^ k := Nat.pos_pow_of_pos k (by norm_num)
    have hdivle : i / 10 ^ k ≤ j / 10 ^ k := Nat.div_le_div_right (le_of_lt hij)
    have hjd : j / 10 ^ k < 10 := by
      rw [Nat.div_lt_iff_lt_mul hp]
      calc j < 10 ^ (k + 1) := hj
        _ = 10 * 10 ^ k := by ring
    show lexLtChars (Nat.digitChar (i / 10 ^ k) :: padDigits k (i % 10 ^ k))
      (Nat.digitChar (j / 10 ^ k) :: padDigits k (j % 10 ^ k)) = true
    rcases eq_or_lt_of_le hdivle with heq | hlt
    · rw [heq]
      simp only [lexLtChars, lt_irrefl, if_neg (lt_irrefl _)]
      apply ih
      · have h1 := Nat.div_add_mod i (10 ^ k)
        have h2 := Nat.div_add_mod j (10 ^ k)
        rw [heq] at h1
        generalize hq : 10 ^ k * (j / 10 ^ k) = q at h1 h2
        omega
      · exact Nat.mod_lt _ hp
    · have hcc : Nat.digitChar (i / 10 ^ k) < Nat.digitChar (j / 10 ^ k) :=
        digitChar_strictMono _ (lt_of_le_of_lt hdivle hjd) _ hjd hlt
      simp [lexLtChars, hcc]

theorem lowerChar_eq_dot {c : Char} (h : lowerChar c = '.') : c = '.' := by
  unfold lowerChar at h
  split at h
  all_goals first
    | exact absurd h (by decide)
    | exact h

theorem ext_shape_of_mapLower {ext : String} {rest : List Char}
    (hmap : ext.data.map lowerChar = '.' :: rest) (hdot : '.' ∉ rest) :
    ∃ ts, ext.data = '.' :: ts ∧ ∀ c ∈ ts, c ≠ '.' := by
  cases hd : ext.data with
  | nil => rw [hd] at hmap; simp at hmap
  | cons a ts =>
    rw [hd] at hmap
    simp only [List.map_cons, List.cons.injEq] at hmap
    obtain ⟨ha, hts⟩ := hmap
    have ha' : a = '.' := lowerChar_eq_dot ha
    subst ha'
    refine ⟨ts, rfl, ?_⟩
    intro c hc hceq
    subst hceq
    apply hdot
    have hmem := List.mem_map_of_mem lowerChar hc
    rw [hts] at hmem
    have : lowerChar '.' = '.' := by decide
    rw [this] at hmem
    exact hmem

theorem supported_ext_shape (ext : String) (h : lowerStr ext ∈ SUPPORTED_FORMATS) :
    ∃ ts, ext.data = '.' :: ts ∧ ∀ c ∈ ts, c ≠ '.' := by
  have hdata : ext.data.map lowerChar = (lowerStr ext).data := rfl
  simp only [SUPPORTED_FORMATS, List.mem_cons, List.not_mem_nil, or_false] at h
  rcases h with h | h | h | h | h | h
  · exact @ext_shape_of_mapLower ext ['j', 'p', 'g'] (by rw [hdata, h]) (by decide)
  · exact @ext_shape_of_mapLower ext ['j', 'p', 'e', 'g'] (by rw [hdata, h]) (by decide)
  · exact @ext_shape_of_mapLower ext ['p', 'n', 'g'] (by rw [hdata, h]) (by decide)
  · exact @ext_shape_of_mapLower ext ['b', 'm', 'p'] (by rw [hdata, h]) (by decide)
  · exact @ext_shape_of_mapLower ext ['t', 'i', 'f', 'f'] (by rw [hdata, h]) (by decide)
  · exact @ext_shape_of_mapLower ext ['t', 'i', 'f'] (by rw [hdata, h]) (by decide)

theorem imgTarget_data (i : Nat) (hi : i < 1000000) (ext : String) :
    (imgTarget i ext).data = ("IMG_".data ++ padDigits 6 i) ++ ext.data := by
  unfold imgTarget pad6
  rw [if_pos hi, String.data_append, String.data_append]

theorem imgTarget_lexLt {i j : Nat} (hij : i < j) (hj : j < 1000000) (e1 e2 : String) :
    lexLtChars (imgTarget i e1).data (imgTarget j e2).data = true := by
  rw [imgTarget_data i (lt_trans hij hj) e1, imgTarget_data j hj e2,
    List.append_assoc, List.append_assoc, lexLtChars_append_left]
  exact lexLtChars_append_of_lt _ _ (padDigits_lexLt 6 i j hij hj)
    (by rw [padDigits_length, padDigits_length]) _ _

theorem splitExtChars_none : ∀ l : List Char, (∀ c ∈ l, c ≠ '.') →
    splitExtChars l = none := by
  intro l
  induction l with
  | nil => intro _; rfl
  | cons c cs ih =>
    intro h
    have hrec := ih (fun x hx => h x (List.mem_cons_of_mem _ hx))
    simp [splitExtChars, hrec, h c (List.mem_cons_self c cs)]

theorem splitExtChars_last : ∀ (p ts : List Char), (∀ c ∈ p, c ≠ '.') →
    (∀ c ∈ ts, c ≠ '.') → splitExtChars (p ++ '.' :: ts) = some (p, '.' :: ts) := by
  intro p
  induction p with
  | nil =>
    intro ts _ hts
    simp [splitExtChars, splitExtChars_none ts hts]
  | cons c cs ih =>
    intro ts hp hts
    have hc := hp c (List.mem_cons_self c cs)
    have hcs : ∀ x ∈ cs, x ≠ '.' := fun x hx => hp x (List.mem_cons_of_mem _ hx)
    simp [splitExtChars, ih ts hcs hts]

theorem splitExt_imgTarget (i : Nat) (hi : i < 1000000) (ext : String)
    (h : lowerStr ext ∈ SUPPORTED_FORMATS) :
    splitExt (imgTarget i ext) = ("IMG_" ++ pad6 i, ext) := by
  obtain ⟨ts, hext, hts⟩ := supported_ext_shape ext h
  have hIMG : ("IMG_" : String).data = ['I', 'M', 'G', '_'] := by decide
  have hpre : ∀ c ∈ "IMG_".data ++ padDigits 6 i, c ≠ '.' := by
    intro c hc
    rcases List.mem_append.mp hc with hc | hc
    · rw [hIMG] at hc
      simp only [List.mem_cons, List.not_mem_nil, or_false] at hc
      rcases hc with rfl | rfl | rfl | rfl <;> decide
    · exact padDigits_no_dot 6 i hi c hc
  unfold splitExt
  have hdata : (imgTarget i ext).data = ("IMG_".data ++ padDigits 6 i) ++ ('.' :: ts) := by
    rw [imgTarget_data i hi ext, hext]
  rw [hdata, splitExtChars_last _ _ hpre hts]
  have hall : (("IMG_".data ++ padDigits 6 i).all (fun c => c = '.')) = false := by
    cases hq : ("IMG_".data ++ padDigits 6 i).all (fun c => c = '.') with
    | false => rfl
    | true =>
      exfalso
      have hmem : 'I' ∈ "IMG_".data ++ padDigits 6 i := by
        apply List.mem_append_left
        rw [hIMG]
        exact List.mem_cons_self _ _
      have := List.all_eq_true.mp hq 'I' hmem
      simp at this
  simp only [hall]
  simp only [Bool.false_eq_true, if_false]
  refine Prod.ext ?_ ?_
  · apply strings_eq_of_data_eq
    show "IMG_".data ++ padDigits 6 i = ("IMG_" ++ pad6 i).data
    rw [String.data_append]
    unfold pad6
    rw [if_pos hi]
  · exact strings_eq_of_data_eq hext.symm

theorem isImage_imgTarget (i : Nat) (ext : String) (h : lowerStr ext ∈ SUPPORTED_FORMATS) :
    isImage (imgTarget i ext) = true := by
  unfold isImage
  rw [List.any_eq_true]
  refine ⟨lowerStr ext, h, ?_⟩
  rw [List.isSuffixOf_iff_suffix]
  have hsplit : (lowerStr (imgTarget i ext)).data =
      (("IMG_" ++ pad6 i).data.map lowerChar) ++ (lowerStr ext).data := by
    show (imgTarget i ext).data.map lowerChar = _
    rw [show (imgTarget i ext).data = ("IMG_" ++ pad6 i).data ++ ext.data from by
      unfold imgTarget
      rw [String.data_append], List.map_append]
    rfl
  rw [hsplit]
  exact List.suffix_append _ _

theorem suffix_right_of_le {e y t1 t2 : List Char}
    (heq : t1 ++ e = t2 ++ y) (hle : e.length ≤ y.length) : e <:+ y := by
  rcases List.append_eq_append_iff.mp heq with ⟨a', _, ha2⟩ | ⟨c', _, hc2⟩
  · have hlen : e.length = a'.length + y.length := by rw [ha2]; simp
    have ha0 : a' = [] := by
      have : a'.length = 0 := by omega
      exact List.length_eq_zero.mp this
    rw [ha0] at ha2
    simp at ha2
    rw [ha2]
  · exact ⟨c', hc2.symm⟩

theorem suffix_suffix_of_le {e y l : List Char} (he : e <:+ l) (hy : y <:+ l)
    (hle : e.length ≤ y.length) : e <:+ y := by
  obtain ⟨t1, ht1⟩ := he
  obtain ⟨t2, ht2⟩ := hy
  exact suffix_right_of_le (ht1.trans ht2.symm) hle

theorem not_isImage_of_json_suffix {f : String}
    (h : ".json".data.isSuffixOf (lowerStr f).data = true) : isImage f = false := by
  cases him : isImage f with
  | false => rfl
  | true =>
    exfalso
    obtain ⟨e, he, hsuf⟩ := List.any_eq_true.mp him
    rw [List.isSuffixOf_iff_suffix] at hsuf h
    have hlen : e.data.length ≤ (".json" : String).data.length := by
      simp only [SUPPORTED_FORMATS, List.mem_cons, List.not_mem_nil, or_false] at he
      rcases he with rfl | rfl | rfl | rfl | rfl | rfl <;> decide
    have hsub : e.data <:+ (".json" : String).data := suffix_suffix_of_le hsuf h hlen
    rw [← List.isSuffixOf_iff_suffix] at hsub
    simp only [SUPPORTED_FORMATS, List.mem_cons, List.not_mem_nil, or_false] at he
    rcases he with rfl | rfl | rfl | rfl | rfl | rfl <;> exact absurd hsub (by decide)

theorem isImage_append_json (s : String) : isImage (s ++ ".json") = false := by
  apply not_isImage_of_json_suffix
  rw [List.isSuffixOf_iff_suffix]
  have hjson : (".json" : String).data.map lowerChar = (".json" : String).data := by decide
  have hsplit : (lowerStr (s ++ ".json")).data =
      s.data.map lowerChar ++ (".json" : String).data := by
    show (s ++ ".json").data.map lowerChar = _
    rw [String.data_append, List.map_append, hjson]
  rw [hsplit]
  exact List.suffix_append _ _

theorem isJson_not_image {f : String} (h : isJsonCandidate f = true) : isImage f = false := by
  unfold isJsonCandidate at h
  rw [Bool.and_eq_true] at h
  exact not_isImage_of_json_suffix h.1

/-- The list of names `rename_all_images` assigns to the sorted image files
starting at position `i`. -/
def targetsFrom : Nat → List String → List String
  | _, [] => []
  | i, old :: rest => imgTarget i (splitExt old).2 :: targetsFrom (i + 1) rest

theorem targetsFrom_length : ∀ (olds : List String) (i),
    (targetsFrom i olds).length = olds.length := by
  intro olds
  induction olds with
  | nil => intro i; rfl
  | cons old rest ih => intro i; simp [targetsFrom, ih]

theorem targetsFrom_mem : ∀ (olds : List String) (i t), t ∈ targetsFrom i olds →
    ∃ j old, i ≤ j ∧ j < i + olds.length ∧ old ∈ olds ∧
      t = imgTarget j (splitExt old).2 := by
  intro olds
  induction olds with
  | nil => intro i t ht; simp [targetsFrom] at ht
  | cons old rest ih =>
    intro i t ht
    simp only [targetsFrom, List.mem_cons] at ht
    rcases ht with rfl | ht
    · exact ⟨i, old, le_refl i, by simp, List.mem_cons_self _ _, rfl⟩
    · obtain ⟨j, o, hij, hjlt, ho, rfl⟩ := ih (i + 1) t ht
      exact ⟨j, o, by omega, by simp; omega, List.mem_cons_of_mem _ ho, rfl⟩

theorem targetsFrom_get? : ∀ (olds : List String) (i k),
    (targetsFrom i olds).get? k =
      (olds.get? k).map (fun o => imgTarget (i + k) (splitExt o).2) := by
  intro olds
  induction olds with
  | nil => intro i k; simp [targetsFrom]
  | cons old rest ih =>
    intro i k
    cases k with
    | zero => simp [targetsFrom]
    | succ k =>
      show (targetsFrom (i + 1) rest).get? k = _
      rw [ih (i + 1) k]
      show _ = (rest.get? k).map (fun o => imgTarget (i + (k + 1)) (splitExt o).2)
      rw [show i + 1 + k = i + (k + 1) from by omega]

theorem targetsFrom_pairwise : ∀ (olds : List String) (i), i + olds.length ≤ 1000000 →
    List.Pairwise (fun a b => lexLtChars a.data b.data = true) (targetsFrom i olds) := by
  intro olds
  induction olds with
  | nil => intro i _; simp [targetsFrom]
  | cons old rest ih =>
    intro i h
    simp only [List.length_cons] at h
    simp only [targetsFrom, List.pairwise_cons]
    constructor
    · intro t ht
      obtain ⟨j, o, hij, hjlt, _, rfl⟩ := targetsFrom_mem rest (i + 1) t ht
      exact imgTarget_lexLt (by omega) (by omega) _ _
    · exact ih (i + 1) (by omega)

theorem targetsFrom_sorted (olds : List String) (i : Nat) (h : i + olds.length ≤ 1000000) :
    List.Sorted fileLe (targetsFrom i olds) :=
  (targetsFrom_pairwise olds i h).imp (fun hab => lexLtChars_asymm _ _ hab)

theorem targetsFrom_nodup (olds : List String) (i : Nat) (h : i + olds.length ≤ 1000000) :
    (targetsFrom i olds).Nodup :=
  (targetsFrom_pairwise olds i h).imp (fun hab heq => by
    rw [heq] at hab
    rw [lexLtChars_irrefl] at hab
    exact Bool.noConfusion hab)

theorem imgStep_collided_false {st : RenState} {i : Nat} {old : String}
    (h : (imgStep st i old).collided = false) : st.collided = false := by
  unfold imgStep at h
  split at h
  · exact h
  · split at h
    · simp at h
    · exact h

theorem imgPhase_collided_false : ∀ (olds : List String) (i) (st : RenState),
    (imgPhase i olds st).collided = false → st.collided = false := by
  intro olds
  induction olds with
  | nil => intro i st h; exact h
  | cons old rest ih =>
    intro i st h
    exact imgStep_collided_false (ih (i + 1) _ h)

theorem imgPhase_collided_true : ∀ (olds : List String) (i) (st : RenState),
    st.collided = true → (imgPhase i olds st).collided = true := by
  intro olds i st h
  cases hres : (imgPhase i olds st).collided with
  | true => rfl
  | false =>
    have := imgPhase_collided_false olds i st hres
    rw [h] at this
    exact Bool.noConfusion this

theorem imgPhase_perm : ∀ (olds : List String) (i) (st : RenState) (others : List String),
    st.files.Perm (olds ++ others) →
    (imgPhase i olds st).collided = false →
    (imgPhase i olds st).files.Perm (targetsFrom i olds ++ others) := by
  intro olds
  induction olds with
  | nil =>
    intro i st others hp _
    simpa [targetsFrom, imgPhase] using hp
  | cons old rest ih =>
    intro i st others hp hcol
    have hshuffle : ∀ (T : List String),
        (T ++ (others ++ [imgTarget i (splitExt old).2])).Perm
          ((imgTarget i (splitExt old).2 :: T) ++ others) := by
      intro T
      have h1 := List.perm_append_singleton (imgTarget i (splitExt old).2) (T ++ others)
      rw [List.append_assoc] at h1
      exact h1
    have hcol' : (imgPhase (i + 1) rest (imgStep st i old)).collided = false := hcol
    have hgoal : (imgPhase i (old :: rest) st).files =
        (imgPhase (i + 1) rest (imgStep st i old)).files := rfl
    rw [hgoal]
    by_cases heq : old = imgTarget i (splitExt old).2
    · have hstep : imgStep st i old = st := by
        unfold imgStep
        rw [if_pos heq]
      rw [hstep] at hcol' ⊢
      have hp' : st.files.Perm (rest ++ (others ++ [imgTarget i (splitExt old).2])) := by
        have h2 : st.files.Perm (old :: (rest ++ others)) := hp
        have h3 := (List.perm_append_singleton old (rest ++ others)).symm
        have h4 := h2.trans h3
        rw [List.append_assoc] at h4
        rw [← heq]
        exact h4
      exact (ih (i + 1) st _ hp' hcol').trans (hshuffle _)
    · by_cases hmem : imgTarget i (splitExt old).2 ∈ st.files
      · exfalso
        have hstep : imgStep st i old = { st with collided := true } := by
          unfold imgStep
          rw [if_neg heq, if_pos hmem]
        rw [hstep] at hcol'
        have htrue := imgPhase_collided_true rest (i + 1) { st with collided := true } rfl
        rw [htrue] at hcol'
        exact Bool.noConfusion hcol'
      · have hstep : imgStep st i old =
            { files := st.files.erase old ++ [imgTarget i (splitExt old).2],
              count := st.count + 1,
              rmap := ((splitExt old).1, "IMG_" ++ pad6 i) :: st.rmap,
              collided := st.collided } := by
          unfold imgStep
          rw [if_neg heq, if_neg hmem]
        rw [hstep] at hcol' ⊢
        have h1 : (st.files.erase old).Perm (rest ++ others) := by
          have h2 := hp.erase old
          rw [show ((old :: rest) ++ others).erase old = rest ++ others from by
            show (old :: (rest ++ others)).erase old = _
            exact List.erase_cons_head old _] at h2
          exact h2
        have hp' : (st.files.erase old ++ [imgTarget i (splitExt old).2]).Perm
            (rest ++ (others ++ [imgTarget i (splitExt old).2])) := by
          have h4 := h1.append_right [imgTarget i (splitExt old).2]
          rw [List.append_assoc] at h4
          exact h4
        exact (ih (i + 1) _ _ hp' hcol').trans (hshuffle _)

theorem filter_erase_of_pos {p : String → Bool} {a : String} (hp : p a = true) :
    ∀ l : List String, (l.erase a).filter p = (l.filter p).erase a := by
  intro l
  induction l with
  | nil => rfl
  | cons b bs ih =>
    by_cases hba : b = a
    · subst hba
      rw [List.erase_cons_head, List.filter_cons_of_pos hp, List.erase_cons_head]
    · rw [List.erase_cons_tail (by simp [hba])]
      cases hpb : p b with
      | true =>
        rw [List.filter_cons_of_pos hpb, List.filter_cons_of_pos hpb,
          List.erase_cons_tail (by simp [hba]), ih]
      | false =>
        rw [List.filter_cons_of_neg (by simp [hpb]), List.filter_cons_of_neg (by simp [hpb]), ih]

theorem filter_erase_of_neg {p : String → Bool} {a : String} (hp : p a = false) :
    ∀ l : List String, (l.erase a).filter p = l.filter p := by
  intro l
  induction l with
  | nil => rfl
  | cons b bs ih =>
    by_cases hba : b = a
    · subst hba
      rw [List.erase_cons_head, List.filter_cons_of_neg (by simp [hp])]
    · rw [List.erase_cons_tail (by simp [hba])]
      cases hpb : p b with
      | true =>
        rw [List.filter_cons_of_pos hpb, List.filter_cons_of_pos hpb, ih]
      | false =>
        rw [List.filter_cons_of_neg (by simp [hpb]), List.filter_cons_of_neg (by simp [hpb]), ih]

theorem imgStep_effects (st : RenState) (i : Nat) (old : String)
    (hmem : old ∈ st.files) (hnd : st.files.Nodup) :
    (imgStep st i old).files.Nodup ∧
    (imgStep st i old).files.length = st.files.length ∧
    (∀ x ∈ st.files, x ≠ old → x ∈ (imgStep st i old).files) ∧
    (isImage old = true → isImage (imgTarget i (splitExt old).2) = true →
      ((imgStep st i old).files.filter isImage).length =
        (st.files.filter isImage).length) := by
  by_cases heq : old = imgTarget i (splitExt old).2
  · have hstep : imgStep st i old = st := by
      unfold imgStep
      rw [if_pos heq]
    rw [hstep]
    exact ⟨hnd, rfl, fun x hx _ => hx, fun _ _ => rfl⟩
  · by_cases hm : imgTarget i (splitExt old).2 ∈ st.files
    · have hstep : imgStep st i old = { st with collided := true } := by
        unfold imgStep
        rw [if_neg heq, if_pos hm]
      rw [hstep]
      exact ⟨hnd, rfl, fun x hx _ => hx, fun _ _ => rfl⟩
    · have hstep : (imgStep st i old).files =
          st.files.erase old ++ [imgTarget i (splitExt old).2] := by
        unfold imgStep
        rw [if_neg heq, if_neg hm]
      rw [hstep]
      have hlenpos : 0 < st.files.length := List.length_pos.mpr (by
        intro h
        rw [h] at hmem
        exact List.not_mem_nil old hmem)
      have hlene : (st.files.erase old).length = st.files.length - 1 :=
        List.length_erase_of_mem hmem
      refine ⟨?_, ?_, ?_, ?_⟩
      · rw [List.nodup_append]
        refine ⟨hnd.erase old, List.nodup_singleton _, ?_⟩
        intro x hx hx2
        have : x = imgTarget i (splitExt old).2 := by simpa using hx2
        subst this
        exact hm (List.mem_of_mem_erase hx)
      · rw [List.length_append, hlene]
        simp
        omega
      · intro x hx hne
        apply List.mem_append_left
        exact (List.mem_erase_of_ne hne).mpr hx
      · intro h1 h2
        rw [List.filter_append, filter_erase_of_pos h1, List.filter_cons_of_pos h2,
          List.filter_nil, List.length_append]
        have hmem2 : old ∈ st.files.filter isImage := List.mem_filter.mpr ⟨hmem, h1⟩
        have hfpos : 0 < (st.files.filter isImage).length := List.length_pos.mpr (by
          intro h
          rw [h] at hmem2
          exact List.not_mem_nil old hmem2)
        rw [List.length_erase_of_mem hmem2]
        simp
        omega

theorem imgPhase_safety : ∀ (olds : List String) (i) (st : RenState),
    olds.Nodup → (∀ o ∈ olds, o ∈ st.files) → st.files.Nodup →
    (∀ o ∈ olds, isImage o = true ∧ lowerStr (splitExt o).2 ∈ SUPPORTED_FORMATS) →
    (imgPhase i olds st).files.Nodup ∧
    (imgPhase i olds st).files.length = st.files.length ∧
    ((imgPhase i olds st).files.filter isImage).length =
      (st.files.filter isImage).length := by
  intro olds
  induction olds with
  | nil =>
    intro i st _ _ hnd _
    exact ⟨hnd, rfl, rfl⟩
  | cons old rest ih =>
    intro i st hndolds hmem hnd hext
    have hmo : old ∈ st.files := hmem old (List.mem_cons_self _ _)
    have hstep := imgStep_effects st i old hmo hnd
    have hio := hext old (List.mem_cons_self _ _)
    have hit : isImage (imgTarget i (splitExt old).2) = true :=
      isImage_imgTarget i _ hio.2
    have hrest : ∀ o ∈ rest, o ∈ (imgStep st i old).files := by
      intro o ho
      refine hstep.2.2.1 o (hmem o (List.mem_cons_of_mem _ ho)) ?_
      intro hoe
      subst hoe
      exact (List.nodup_cons.mp hndolds).1 ho
    have := ih (i + 1) (imgStep st i old) (List.nodup_cons.mp hndolds).2 hrest hstep.1
      (fun o ho => hext o (List.mem_cons_of_mem _ ho))
    refine ⟨this.1, ?_, ?_⟩
    · rw [show (imgPhase i (old :: rest) st).files =
        (imgPhase (i + 1) rest (imgStep st i old)).files from rfl, this.2.1, hstep.2.1]
    · rw [show (imgPhase i (old :: rest) st).files =
        (imgPhase (i + 1) rest (imgStep st i old)).files from rfl, this.2.2,
        hstep.2.2.2 hio.1 hit]

theorem imgPhase_fixed : ∀ (olds : List String) (i) (st : RenState),
    (∀ k old', olds.get? k = some old' → old' = imgTarget (i + k) (splitExt old').2) →
    imgPhase i olds st = st := by
  intro olds
  induction olds with
  | nil => intro i st _; rfl
  | cons old rest ih =>
    intro i st h
    have h0 : old = imgTarget i (splitExt old).2 := by
      have := h 0 old rfl
      simpa using this
    have hstep : imgStep st i old = st := by
      unfold imgStep
      rw [if_pos h0]
    show imgPhase (i + 1) rest (imgStep st i old) = st
    rw [hstep]
    apply ih
    intro k old' hk
    have := h (k + 1) old' (by simpa using hk)
    rw [show i + (k + 1) = i + 1 + k from by omega] at this
    exact this

theorem jsonStep_collided (st : RenState) (j : String) :
    (jsonStep st j).collided = st.collided := by
  unfold jsonStep
  split <;> rfl

theorem jsonPhase_collided : ∀ (js : List String) (st : RenState),
    (jsonPhase js st).collided = st.collided := by
  intro js
  induction js with
  | nil => intro st; rfl
  | cons j rest ih =>
    intro st
    show (jsonPhase rest (jsonStep st j)).collided = _
    rw [ih, jsonStep_collided]

theorem jsonStep_nodup {st : RenState} (h : st.files.Nodup) (j : String) :
    (jsonStep st j).files.Nodup := by
  unfold jsonStep
  split
  · exact h
  · next nb hnb =>
    simp only
    split
    · exact h.erase _
    · next hnot =>
      apply List.Nodup.erase
      rw [List.nodup_append]
      refine ⟨h, List.nodup_singleton _, ?_⟩
      intro x hx hx2
      have hxeq : x = nb ++ ".json" := by simpa using hx2
      rw [hxeq] at hx
      exact hnot hx

theorem jsonPhase_nodup : ∀ (js : List String) (st : RenState),
    st.files.Nodup → (jsonPhase js st).files.Nodup := by
  intro js
  induction js with
  | nil => intro st h; exact h
  | cons j rest ih =>
    intro st h
    exact ih _ (jsonStep_nodup h j)

theorem jsonStep_filter_image {st : RenState} {jname : String}
    (hj : isImage jname = false) :
    (jsonStep st jname).files.filter isImage = st.files.filter isImage := by
  unfold jsonStep
  split
  · rfl
  · next nb hnb =>
    simp only
    rw [filter_erase_of_neg hj]
    split
    · rfl
    · rw [List.filter_append, List.filter_cons_of_neg (by simp [isImage_append_json nb]),
        List.filter_nil, List.append_nil]

theorem jsonPhase_filter_image : ∀ (js : List String) (st : RenState),
    (∀ j ∈ js, isImage j = false) →
    (jsonPhase js st).files.filter isImage = st.files.filter isImage := by
  intro js
  induction js with
  | nil => intro st _; rfl
  | cons j rest ih =>
    intro st h
    show (jsonPhase rest (jsonStep st j)).files.filter isImage = _
    rw [ih _ (fun x hx => h x (List.mem_cons_of_mem _ hx)),
      jsonStep_filter_image (h j (List.mem_cons_self _ _))]

theorem jsonStep_empty_rmap {st : RenState} (h : st.rmap = []) (j : String) :
    jsonStep st j = st := by
  unfold jsonStep
  rw [h]
  rfl

theorem jsonPhase_empty_rmap : ∀ (js : List String) (st : RenState),
    st.rmap = [] → jsonPhase js st = st := by
  intro js
  induction js with
  | nil => intro st _; rfl
  | cons j rest ih =>
    intro st h
    show jsonPhase rest (jsonStep st j) = st
    rw [jsonStep_empty_rmap h j]
    exact ih st h

/-- Boundary condition for the rename scheme: every image file's name splits
into a basename and one of the supported extensions (ruling out names such as
`".jpg"` whose `os.path.splitext` extension is empty). -/
def imagesProperExt (fs : List String) : Prop :=
  ∀ f ∈ fs, isImage f = true → lowerStr (splitExt f).2 ∈ SUPPORTED_FORMATS

instance (fs : List String) : Decidable (imagesProperExt fs) :=
  inferInstanceAs (Decidable (∀ f ∈ fs, _ → _))

/-- Claim C1, amended.  For a directory of distinct file names whose images
have proper extensions: (a) renaming never overwrites or loses a file — the
name list stays duplicate-free and the number of image files is preserved;
(b) when no rename was skipped for an existing destination, the image files
afterwards are exactly the scheme names `IMG_{000000 + i}{original
extension}` assigned in sorted order; and (c) under the same no-collision
proviso, with at most `10^6` images, a second `rename_all_images` run renames
0 files.  Without the no-collision proviso idempotence fails (see the
counterexample), and the sidecar rewrite phase uses a plain overwriting
write, so only image renames are collision-checked. -/
theorem C1_rename_contract (fs : List String) (hnd : fs.Nodup)
    (hext : imagesProperExt fs) :
    (renameAllFiles fs).files.Nodup ∧
    ((renameAllFiles fs).files.filter isImage).length = (fs.filter isImage).length ∧
    ((renameAllFiles fs).collided = false →
      ((renameAllFiles fs).files.filter isImage).Perm
        (targetsFrom 0 (sortFiles (fs.filter isImage)))) ∧
    ((renameAllFiles fs).collided = false → (fs.filter isImage).length ≤ 1000000 →
      (renameAllFiles (renameAllFiles fs).files).count = 0) := by
  have hdef : renameAllFiles fs =
      jsonPhase (sortFiles (fs.filter isJsonCandidate))
        (imgPhase 0 (sortFiles (fs.filter isImage)) ⟨fs, 0, [], false⟩) := rfl
  have himgs_perm := sortFiles_perm (fs.filter isImage)
  have himgs_nodup : (sortFiles (fs.filter isImage)).Nodup :=
    himgs_perm.nodup_iff.mpr (hnd.filter _)
  have hmem_imgs : ∀ o ∈ sortFiles (fs.filter isImage), o ∈ fs := fun o ho =>
    List.mem_of_mem_filter (himgs_perm.mem_iff.mp ho)
  have hprops : ∀ o ∈ sortFiles (fs.filter isImage),
      isImage o = true ∧ lowerStr (splitExt o).2 ∈ SUPPORTED_FORMATS := by
    intro o ho
    have hof : o ∈ fs.filter isImage := himgs_perm.mem_iff.mp ho
    have h1 : isImage o = true := List.of_mem_filter hof
    exact ⟨h1, hext o (List.mem_of_mem_filter hof) h1⟩
  have hsafety := imgPhase_safety (sortFiles (fs.filter isImage)) 0 ⟨fs, 0, [], false⟩
    himgs_nodup hmem_imgs hnd hprops
  have hjson_noimg : ∀ j ∈ sortFiles (fs.filter isJsonCandidate), isImage j = false := by
    intro j hj
    have := (sortFiles_perm (fs.filter isJsonCandidate)).mem_iff.mp hj
    exact isJson_not_image (List.of_mem_filter this)
  have hfiltereq : (renameAllFiles fs).files.filter isImage =
      (imgPhase 0 (sortFiles (fs.filter isImage)) ⟨fs, 0, [], false⟩).files.filter
        isImage := by
    rw [hdef]
    exact jsonPhase_filter_image _ _ hjson_noimg
  refine ⟨?_, ?_, ?_, ?_⟩
  · rw [hdef]
    exact jsonPhase_nodup _ _ hsafety.1
  · rw [hfiltereq]
    exact hsafety.2.2
  · intro hcol
    have hcol1 : (imgPhase 0 (sortFiles (fs.filter isImage)) ⟨fs, 0, [], false⟩).collided
        = false := by
      rw [hdef, jsonPhase_collided] at hcol
      exact hcol
    have hst0 : (⟨fs, 0, [], false⟩ : RenState).files.Perm
        (sortFiles (fs.filter isImage) ++ fs.filter (fun f => !isImage f)) := by
      show fs.Perm _
      refine ((List.filter_append_perm isImage fs).symm).trans ?_
      exact himgs_perm.symm.append_right _
    have hperm := imgPhase_perm (sortFiles (fs.filter isImage)) 0 ⟨fs, 0, [], false⟩
      (fs.filter (fun f => !isImage f)) hst0 hcol1
    have hpermf := hperm.filter isImage
    rw [List.filter_append] at hpermf
    have hT : (targetsFrom 0 (sortFiles (fs.filter isImage))).filter isImage =
        targetsFrom 0 (sortFiles (fs.filter isImage)) := by
      rw [List.filter_eq_self]
      intro t ht
      obtain ⟨j, o, _, _, ho, rfl⟩ := targetsFrom_mem _ 0 t ht
      exact isImage_imgTarget j _ (hprops o ho).2
    have hO : (fs.filter (fun f => !isImage f)).filter isImage = [] := by
      rw [List.filter_eq_nil]
      intro x hx
      have := List.of_mem_filter hx
      simp at this
      simp [this]
    rw [hT, hO, List.append_nil] at hpermf
    rw [hfiltereq]
    exact hpermf
  · intro hcol hlen
    have hcol1 : (imgPhase 0 (sortFiles (fs.filter isImage)) ⟨fs, 0, [], false⟩).collided
        = false := by
      rw [hdef, jsonPhase_collided] at hcol
      exact hcol
    have hlen' : (sortFiles (fs.filter isImage)).length ≤ 1000000 := by
      rw [himgs_perm.length_eq]
      exact hlen
    have hst0 : (⟨fs, 0, [], false⟩ : RenState).files.Perm
        (sortFiles (fs.filter isImage) ++ fs.filter (fun f => !isImage f)) := by
      show fs.Perm _
      refine ((List.filter_append_perm isImage fs).symm).trans ?_
      exact himgs_perm.symm.append_right _
    have hperm := imgPhase_perm (sortFiles (fs.filter isImage)) 0 ⟨fs, 0, [], false⟩
      (fs.filter (fun f => !isImage f)) hst0 hcol1
    have hpermf := hperm.filter isImage
    rw [List.filter_append] at hpermf
    have hT : (targetsFrom 0 (sortFiles (fs.filter isImage))).filter isImage =
        targetsFrom 0 (sortFiles (fs.filter isImage)) := by
      rw [List.filter_eq_self]
      intro t ht
      obtain ⟨j, o, _, _, ho, rfl⟩ := targetsFrom_mem _ 0 t ht
      exact isImage_imgTarget j _ (hprops o ho).2
    have hO : (fs.filter (fun f => !isImage f)).filter isImage = [] := by
      rw [List.filter_eq_nil]
      intro x hx
      have := List.of_mem_filter hx
      simp at this
      simp [this]
    rw [hT, hO, List.append_nil] at hpermf
    have hfs1 : (renameAllFiles fs).files.filter isImage =
        (imgPhase 0 (sortFiles (fs.filter isImage)) ⟨fs, 0, [], false⟩).files.filter
          isImage := hfiltereq
    have hperm2 : ((renameAllFiles fs).files.filter isImage).Perm
        (targetsFrom 0 (sortFiles (fs.filter isImage))) := by
      rw [hfs1]
      exact hpermf
    have himgs2 : sortFiles ((renameAllFiles fs).files.filter isImage) =
        targetsFrom 0 (sortFiles (fs.filter isImage)) := by
      apply List.eq_of_perm_of_sorted
        ((sortFiles_perm _).trans hperm2)
        (sortFiles_sorted _)
      exact targetsFrom_sorted _ 0 (by omega)
    have hfix : imgPhase 0 (sortFiles ((renameAllFiles fs).files.filter isImage))
        (⟨(renameAllFiles fs).files, 0, [], false⟩ : RenState) =
        (⟨(renameAllFiles fs).files, 0, [], false⟩ : RenState) := by
      rw [himgs2]
      apply imgPhase_fixed
      intro k old' hk
      rw [targetsFrom_get? _ 0 k] at hk
      cases hko : (sortFiles (fs.filter isImage)).get? k with
      | none => rw [hko] at hk; simp at hk
      | some o =>
        rw [hko] at hk
        have hk' : some (imgTarget (0 + k) (splitExt o).2) = some old' := hk
        have hval := Option.some.inj hk'
        have hkn : k < (sortFiles (fs.filter isImage)).length := by
          by_contra hno
          rw [List.get?_eq_none.mpr (le_of_not_lt hno)] at hko
          exact Option.noConfusion hko
        have ho : o ∈ sortFiles (fs.filter isImage) := List.get?_mem hko
        have hsp := splitExt_imgTarget (0 + k) (by omega) _ (hprops o ho).2
        subst hval
        rw [hsp]
    show (jsonPhase (sortFiles ((renameAllFiles fs).files.filter isJsonCandidate))
      (imgPhase 0 (sortFiles ((renameAllFiles fs).files.filter isImage))
        ⟨(renameAllFiles fs).files, 0, [], false⟩)).count = 0
    rw [hfix, jsonPhase_empty_rmap _ _ rfl]

/-- Witness for `C1_rename_contract` on a one-image directory: the run is
collision-free and a second run renames 0 files. -/
theorem C1_rename_contract_witness :
    (renameAllFiles ["b.jpg"]).files.Nodup ∧
    (renameAllFiles (renameAllFiles ["b.jpg"]).files).count = 0 := by
  have h := C1_rename_contract ["b.jpg"] (by decide) (by decide)
  exact ⟨h.1, h.2.2.2 (by decide) (by decide)⟩
